import Mathlib

/-!
# A verification of the mgaps clustering-and-chaining engine

This file gives a shallow embedding in Lean 4 of the core of `mgaps.cc`
(the MUMmer match-clustering program): the match filter (`Filter_Matches`),
the union-find based cluster builder, and the per-cluster chain selector
(`Process_Cluster`), together with the driver `Process_Matches`.

Modelling conventions:
* C `long int` / `int` values are modelled as `Int` (the program's
  arithmetic never relies on wrap-around for the properties considered).
* The match array is modelled as a `List Match_t`; in-place mutation
  becomes `List.set`, reads become `List.getD` (out-of-range reads return
  a default element; all verified runs stay in range).
* C loops become fuel-indexed recursions; each fuel argument is
  instantiated with an explicit bound that provably dominates the number
  of iterations of the source loop.
* `qsort` with a total comparator is modelled as a stable insertion sort
  on the same ordering (the source comparators are total pre-orders, and
  `qsort` leaves the order of equivalent elements unspecified; the stable
  sort is one of the allowed outcomes).
* The floating-point expression `(int)(Separation_Factor * sep)` is kept
  abstract as a configuration function `sepFactorMul : Int → Int`; for the
  default factor 0.05 it is instantiated with truncating division by 20,
  which agrees with the double computation for all |sep| relevant here.
* C `assert` statements are modelled as `Bool` checks that are threaded
  through the computation (`ok` flags) without changing the state.
-/

set_option maxHeartbeats 4000000

namespace mummer_mgaps

/-- Default fixed diagonal-difference tolerance (mgaps.cc line 21). -/
def DEFAULT_FIXED_SEPARATION : Int := 5

/-- Default maximum separation between clustered matches (line 22). -/
def DEFAULT_MAX_SEPARATION : Int := 1000

/-- Default minimum chain score for output (line 23). -/
def DEFAULT_MIN_OUTPUT_SCORE : Int := 200

/-- `LONG_MIN` for 64-bit `long` (initial value of `hi` in `Process_Cluster`). -/
def LONG_MIN : Int := -(2 ^ 63)

/-- `LONG_MAX` for 64-bit `long` (initial value of `lo` in `Process_Cluster`). -/
def LONG_MAX : Int := 2 ^ 63 - 1

/-- The configuration globals of mgaps.cc (lines 82-86), gathered in a record.
`sepFactorMul sep` models the C expression `(int)(Separation_Factor * sep)`. -/
structure Config where
  Fixed_Separation : Int
  Max_Separation : Int
  Min_Output_Score : Int
  sepFactorMul : Int → Int
  Use_Extents : Bool

/-- The default configuration: fixed separation 5, max separation 1000,
minimum output score 200, separation factor 0.05 (`(int)(0.05 * sep)` is
truncation toward zero of `sep / 20`, as computed by the double arithmetic
for every `|sep|` below 2^50), summed-length scoring. -/
def defaultConfig : Config where
  Fixed_Separation := DEFAULT_FIXED_SEPARATION
  Max_Separation := DEFAULT_MAX_SEPARATION
  Min_Output_Score := DEFAULT_MIN_OUTPUT_SCORE
  sepFactorMul := fun sep => Int.tdiv sep 20
  Use_Extents := false

/-- `Match_t` (mgaps.cc lines 68-78).  The constructor used by the reader
sets `Start1`, `Start2`, `Len` and clears `Good` and `Tentative`; the
remaining fields are scratch space written before every use (modelled as 0). -/
structure Match_t where
  Start1 : Int
  Start2 : Int
  Len : Int
  Simple_Score : Int
  Simple_From : Int
  Simple_Adj : Int
  cluster_id : Int
  Good : Bool
  Tentative : Bool
deriving Repr, DecidableEq, Inhabited

/-- The `Match_t(S1, S2, L)` constructor (line 77). -/
def mkMatch (S1 S2 L : Int) : Match_t :=
  ⟨S1, S2, L, 0, 0, 0, 0, false, false⟩

/-- Read `A[i]` (out-of-range reads return the default element). -/
def mget (A : List Match_t) (i : Nat) : Match_t :=
  A.getD i default

/-- The payload of a match: the coordinates that identify the anchor. -/
def payload (m : Match_t) : Int × Int × Int :=
  (m.Start1, m.Start2, m.Len)

/-- Comparator `By_Start2` (lines 106-129) as a total boolean pre-order:
by `Start2`, ties by `Start1`. -/
def byStart2LE (x y : Match_t) : Bool :=
  decide (x.Start2 < y.Start2 ∨ (x.Start2 = y.Start2 ∧ x.Start1 ≤ y.Start1))

/-- Comparator `By_Cluster` (lines 133-160) as a total boolean pre-order:
by `cluster_id`, then `Start2`, then `Start1`. -/
def byClusterLE (x y : Match_t) : Bool :=
  decide (x.cluster_id < y.cluster_id ∨
    (x.cluster_id = y.cluster_id ∧
      (x.Start2 < y.Start2 ∨ (x.Start2 = y.Start2 ∧ x.Start1 ≤ y.Start1))))

/-- Insert into a sorted list (helper for the model of `qsort`). -/
def insertLE {α : Type} (le : α → α → Bool) (x : α) : List α → List α
  | [] => [x]
  | y :: ys => if le x y then x :: y :: ys else y :: insertLE le x ys

/-- Stable insertion sort: the model of `qsort` with a total comparator. -/
def sortLE {α : Type} (le : α → α → Bool) : List α → List α
  | [] => []
  | x :: xs => insertLE le x (sortLE le xs)

/-! ## Match Filter (`Filter_Matches`, mgaps.cc lines 164-292) -/

/-- One iteration of the inner scan of `Filter_Matches` (lines 193-275),
acting on anchors `i` (the live scan head) and `j` (the candidate).
Returns the updated list and `true` iff the C `break` was taken.
Divisions `Len / 2` are C truncating division. -/
def Filter_innerBody (A : List Match_t) (i j : Nat) : List Match_t × Bool :=
  let mi := mget A i
  let mj := mget A j
  if !mj.Good then (A, false)
  else
    let i_diag := mi.Start2 - mi.Start1
    let j_diag := mj.Start2 - mj.Start1
    if i_diag = j_diag then
      let j_extent := mj.Len + mj.Start2 - mi.Start2
      let A1 := if j_extent > mi.Len then A.set i { mi with Len := j_extent } else A
      (A1.set j { mj with Good := false }, false)
    else if mi.Start1 = mj.Start1 then
      let olap := mi.Start2 + mi.Len - mj.Start2
      if mi.Len < mj.Len then
        if olap ≥ Int.tdiv mi.Len 2 then (A.set i { mi with Good := false }, true)
        else (A, false)
      else if mj.Len < mi.Len then
        if olap ≥ Int.tdiv mj.Len 2 then (A.set j { mj with Good := false }, false)
        else (A, false)
      else
        if olap ≥ Int.tdiv mi.Len 2 then
          let A1 := A.set j { mj with Tentative := true }
          if mi.Tentative then (A1.set i { mi with Good := false }, true)
          else (A1, false)
        else (A, false)
    else if mi.Start2 = mj.Start2 then
      let olap := mi.Start1 + mi.Len - mj.Start1
      if mi.Len < mj.Len then
        if olap ≥ Int.tdiv mi.Len 2 then (A.set i { mi with Good := false }, true)
        else (A, false)
      else if mj.Len < mi.Len then
        if olap ≥ Int.tdiv mj.Len 2 then (A.set j { mj with Good := false }, false)
        else (A, false)
      else
        if olap ≥ Int.tdiv mi.Len 2 then
          let A1 := A.set j { mj with Tentative := true }
          if mi.Tentative then (A1.set i { mi with Good := false }, true)
          else (A1, false)
        else (A, false)
    else (A, false)

/-- The inner scan loop of `Filter_Matches` (line 191): advance `j` while it
is in range and `A[j].Start2 ≤ A[i].Start2 + A[i].Len` (the current `i_end`;
the source keeps `i_end` in a local that is updated exactly when `A[i].Len`
is, so recomputing it is equivalent).  `fuel` bounds the iteration count. -/
def Filter_innerLoop (A : List Match_t) (i : Nat) (fuel : Nat) (j : Nat) : List Match_t :=
  match fuel with
  | 0 => A
  | f + 1 =>
    if j < A.length ∧ (mget A j).Start2 ≤ (mget A i).Start2 + (mget A i).Len then
      let r := Filter_innerBody A i j
      if r.2 then r.1 else Filter_innerLoop r.1 i f (j + 1)
    else A

/-- The outer loop of `Filter_Matches` (line 181): for `i` from 0 while
`i < N - 1`, skip non-live anchors, otherwise run the inner scan. -/
def Filter_outerLoop (A : List Match_t) (fuel : Nat) (i : Nat) : List Match_t :=
  match fuel with
  | 0 => A
  | f + 1 =>
    if i + 1 < A.length then
      let A1 := if (mget A i).Good then Filter_innerLoop A i (A.length - (i + 1)) (i + 1) else A
      Filter_outerLoop A1 f (i + 1)
    else A

/-- `Filter_Matches` (lines 164-292): mark all anchors live, run the scan,
compact the live anchors to the front, then clear the `Good` flags
(the source resets only `Good`, not `Tentative`). -/
def Filter_Matches (A : List Match_t) : List Match_t :=
  let A0 := A.map fun m => { m with Good := true }
  let A1 := Filter_outerLoop A0 A0.length 0
  (A1.filter fun m => m.Good).map fun m => { m with Good := false }

/-! ## Chain Selector (`Process_Cluster`, mgaps.cc lines 297-406) -/

/-- One output record, as written by `Process_Cluster`:
* `lbl s` — a label (header or continuation marker) line;
* `firstRec` — the first anchor of a chain, emitted unadjusted with
  textual `none`/`-`/`-` in the remaining columns;
* `nextRec s1 s2 len adj g1 g2` — a subsequent anchor with adjusted
  coordinates; `adj = none` models the textual `none` printed when the
  adjustment is zero, otherwise `adj = some v` where `v` is the printed
  (negated) adjustment; `g1`, `g2` are the gaps to the previous anchor. -/
inductive OutLine where
  | lbl (s : String)
  | firstRec (s1 s2 len : Int)
  | nextRec (s1 s2 len : Int) (adj : Option Int) (g1 g2 : Int)
deriving Repr, DecidableEq

/-- The dynamic-programming update for one anchor (lines 312-338): starting
from `Simple_Score = Len`, `Simple_Adj = 0`, `Simple_From = -1`, scan all
earlier anchors `j` (with their already-updated scores, supplied in `acc`)
and keep the best predecessor under the overlap-plus-diagonal-drift penalty. -/
def dpBest (acc : List Match_t) (m : Match_t) : Match_t :=
  let init := { m with Simple_Score := m.Len, Simple_Adj := 0, Simple_From := -1 }
  acc.enum.foldl
    (fun cur jm =>
      let j := jm.1
      let mj := jm.2
      let Olap1 := mj.Start1 + mj.Len - cur.Start1
      let OlapA := max 0 Olap1
      let Olap2 := mj.Start2 + mj.Len - cur.Start2
      let Olap := max OlapA Olap2
      let Pen := Olap + |((cur.Start2 - cur.Start1) - (mj.Start2 - mj.Start1))|
      if mj.Simple_Score + cur.Len - Pen > cur.Simple_Score then
        { cur with
            Simple_From := Int.ofNat j
            Simple_Score := mj.Simple_Score + cur.Len - Pen
            Simple_Adj := Olap }
      else cur)
    init

/-- The full DP pass (outer loop of lines 312-338), left to right. -/
def dp (A : List Match_t) : List Match_t :=
  A.foldl (fun acc m => acc ++ [dpBest acc m]) []

/-- Select the chain terminus (lines 340-343): the smallest index with
maximal `Simple_Score` (ties keep the earlier index, as in the source's
strict comparison). -/
def bestIdx (A : List Match_t) : Nat :=
  A.enum.foldl
    (fun b im => if im.2.Simple_Score > (mget A b).Simple_Score then im.1 else b)
    0

/-- Walk the `Simple_From` links back from the terminus (lines 344-355),
marking every visited anchor `Good` and accumulating the summed length
`total` and the extent bounds `hi`, `lo`. -/
def markWalk (A : List Match_t) (fuel : Nat) (i : Int) (total hi lo : Int) :
    List Match_t × Int × Int × Int :=
  match fuel with
  | 0 => (A, total, hi, lo)
  | f + 1 =>
    if i < 0 then (A, total, hi, lo)
    else
      let n := i.toNat
      let m := mget A n
      let A1 := A.set n { m with Good := true }
      markWalk A1 f m.Simple_From (total + m.Len)
        (max hi (m.Start1 + m.Len)) (min lo m.Start1)

/-- The emission loop (lines 366-389): scan the anchors in order, print the
`Good` ones; the first is unadjusted, every later one is shifted by its
`Simple_Adj` and reports the gaps to the previously printed anchor. -/
def emitLines (A : List Match_t) : List OutLine :=
  (A.foldl
    (fun acc m =>
      if m.Good then
        match acc.2 with
        | none => (acc.1 ++ [OutLine.firstRec m.Start1 m.Start2 m.Len], some m)
        | some prev =>
          let adj := m.Simple_Adj
          (acc.1 ++
            [OutLine.nextRec (m.Start1 + adj) (m.Start2 + adj) (m.Len - adj)
              (if adj = 0 then none else some (-adj))
              (m.Start1 + adj - prev.Start1 - prev.Len)
              (m.Start2 + adj - prev.Start2 - prev.Len)],
            some m)
      else acc)
    ([], none)).1

/-- The result of one iteration of the `do`-`while` body of
`Process_Cluster`: the lines printed (with the label, if any), whether a
chain was printed, the extracted chain (the anchors marked `Good`, in
order), and the compacted remainder. -/
structure Pass where
  lines : List OutLine
  printed : Bool
  chain : List Match_t
  rest : List Match_t
deriving Repr

/-- One iteration of the `do`-`while` body of `Process_Cluster`
(lines 310-403): run the DP, select and mark the best chain, score it,
print it when the score reaches `Min_Output_Score`, and compact the
unmarked anchors. -/
def onePass (cfg : Config) (label : String) (A : List Match_t) : Pass :=
  let A1 := dp A
  let b := bestIdx A1
  let w := markWalk A1 A1.length (Int.ofNat b) 0 LONG_MIN LONG_MAX
  let A2 := w.1
  let total := w.2.1
  let extent := w.2.2.1 - w.2.2.2
  let score := if cfg.Use_Extents then extent else total
  let chain := A2.filter fun m => m.Good
  let rest := A2.filter fun m => !m.Good
  if score ≥ cfg.Min_Output_Score then
    { lines := OutLine.lbl label :: emitLines A2, printed := true, chain := chain, rest := rest }
  else
    { lines := [], printed := false, chain := chain, rest := rest }

/-- The `do`-`while` loop of `Process_Cluster`, fuel-indexed.  After a
printed chain the label becomes the continuation marker `"#"` (line 390).
Returns the printed lines, the number of chains printed, and the list of
extracted chains.  (The source is never called with an empty cluster; the
guard mirrors the loop condition `N > 0`.) -/
def Process_Cluster_aux (cfg : Config) (fuel : Nat) (label : String) (A : List Match_t) :
    List OutLine × Nat × List (List Match_t) :=
  match fuel with
  | 0 => ([], 0, [])
  | f + 1 =>
    if A.length = 0 then ([], 0, [])
    else
      let p := onePass cfg label A
      let label1 := if p.printed then "#" else label
      let r := Process_Cluster_aux cfg f label1 p.rest
      (p.lines ++ r.1, (if p.printed then 1 else 0) + r.2.1, p.chain :: r.2.2)

/-- `Process_Cluster` (lines 297-406); the fuel `A.length` dominates the
iteration count because every pass consumes at least one anchor. -/
def Process_Cluster (cfg : Config) (label : String) (A : List Match_t) :
    List OutLine × Nat × List (List Match_t) :=
  Process_Cluster_aux cfg A.length label A

/-! ## Union-find (`UnionFind`, mgaps.cc lines 29-65)

The state is the parent/size array `m_UF`, modelled as a `List Int` of
length `s + 1` (index 0 unused): a negative entry is a root storing the
negated set size, a positive entry is the parent index. -/

/-- `UnionFind::reset` (lines 32-36). -/
def UF_reset (s : Nat) : List Int :=
  List.replicate (s + 1) (-1)

/-- The first loop of `UnionFind::find` (line 43): follow parent links while
the entry is positive.  The fuel (instantiated with the array length, which
the acyclicity invariant proves sufficient) bounds the walk. -/
def walkRoot (uf : List Int) (fuel : Nat) (i : Nat) : Nat :=
  match fuel with
  | 0 => i
  | f + 1 =>
    let v := uf.getD i 0
    if 0 < v then walkRoot uf f v.toNat else i

/-- The second loop of `UnionFind::find` (lines 45-48): path compression,
redirecting every node on the walk from `j` to point directly at the root
`i`, stopping at the node whose parent already is `i`. -/
def compressPath (uf : List Int) (fuel : Nat) (j i : Nat) : List Int :=
  match fuel with
  | 0 => uf
  | f + 1 =>
    let v := uf.getD j 0
    if v = (i : Int) then uf
    else compressPath (uf.set j (i : Int)) f v.toNat i

/-- `UnionFind::find` (lines 38-50): early return at a root, otherwise walk
to the root and compress the path.  Returns the updated array and the root. -/
def UF_find (uf : List Int) (a : Nat) : List Int × Nat :=
  if uf.getD a 0 < 0 then (uf, a)
  else
    let i := walkRoot uf uf.length a
    (compressPath uf uf.length a i, i)

/-- `UnionFind::union_sets` (lines 53-64): no-op on equal ids, otherwise
attach the smaller tree under the root of the larger (a more negative entry
means a larger size), accumulating sizes. -/
def union_sets (uf : List Int) (a b : Nat) : List Int :=
  if a = b then uf
  else
    let va := uf.getD a 0
    let vb := uf.getD b 0
    if va < vb then (uf.set a (va + vb)).set b (a : Int)
    else (uf.set b (vb + va)).set a (b : Int)

/-- The assertion of `union_sets` (line 55) plus the index-range contract of
the structure (comment at lines 27-28), checked for indices in `[1, N]`:
trivially true when `a = b` (the source returns before asserting). -/
def unionOK (uf : List Int) (N a b : Nat) : Bool :=
  a == b ||
    (decide (uf.getD a 0 < 0) && decide (uf.getD b 0 < 0) &&
      decide (1 ≤ a) && decide (a ≤ N) && decide (1 ≤ b) && decide (b ≤ N))

/-! ## Cluster Builder (`Process_Matches`, mgaps.cc lines 411-504)

Matches are 1-based in the source (`A[1 .. N]`); the model keeps the
0-based list and translates a union-find index `i ∈ [1, N]` to the list
position `i - 1`. -/

/-- The inner pair scan of the clustering loop (lines 440-451): for a fixed
`i`, scan `j` upward, stop at the first `j` whose separation exceeds
`Max_Separation`, and union the two sets when the diagonal difference is
within tolerance.  The source evaluates `UF.find(i)` and `UF.find(j)` in
an unspecified order; the model fixes `find i` first (the roots returned,
and hence the resulting partition, do not depend on the order).  The `ok`
flag accumulates the `union_sets` assertion checks. -/
def clusterScanJ (cfg : Config) (A : List Match_t) (N : Nat) (i : Nat)
    (fuel : Nat) (j : Nat) (uf : List Int) (ok : Bool) : List Int × Bool :=
  match fuel with
  | 0 => (uf, ok)
  | f + 1 =>
    if j ≤ N then
      let mi := mget A (i - 1)
      let mj := mget A (j - 1)
      let i_end := mi.Start2 + mi.Len
      let i_diag := mi.Start2 - mi.Start1
      let sep := mj.Start2 - i_end
      if sep > cfg.Max_Separation then (uf, ok)
      else
        let diag_diff := |(mj.Start2 - mj.Start1) - i_diag|
        if diag_diff ≤ max cfg.Fixed_Separation (cfg.sepFactorMul sep) then
          let fa := UF_find uf i
          let fb := UF_find fa.1 j
          let ok1 := ok && unionOK fb.1 N fa.2 fb.2
          clusterScanJ cfg A N i f (j + 1) (union_sets fb.1 fa.2 fb.2) ok1
        else clusterScanJ cfg A N i f (j + 1) uf ok
    else (uf, ok)

/-- The outer clustering loop (lines 435-452): `i` from 1 while `i < N`. -/
def clusterScanI (cfg : Config) (A : List Match_t) (N : Nat)
    (fuel : Nat) (i : Nat) (uf : List Int) (ok : Bool) : List Int × Bool :=
  match fuel with
  | 0 => (uf, ok)
  | f + 1 =>
    if i < N then
      let r := clusterScanJ cfg A N i (N - i) (i + 1) uf ok
      clusterScanI cfg A N f (i + 1) r.1 r.2
    else (uf, ok)

/-- The cluster-id assignment loop (lines 456-457): for `i` from 1 to `N`,
`A[i].cluster_id = UF.find(i)` (each `find` may compress the array). -/
def assignIds (A : List Match_t) (fuel : Nat) (i : Nat) (uf : List Int) :
    List Match_t × List Int :=
  match fuel with
  | 0 => (A, uf)
  | f + 1 =>
    if i ≤ A.length then
      let fr := UF_find uf i
      let m := mget A (i - 1)
      assignIds (A.set (i - 1) { m with cluster_id := (fr.2 : Int) }) f (i + 1) fr.1
    else (A, uf)

/-- The clustering phase: `UF.reset` (with the pre-filter count `S`, as at
line 429; its assertion `s >= 1` becomes the initial `ok`), the pair scan,
and the cluster-id assignment over the `A.length` filtered matches. -/
def clusterPhase (cfg : Config) (S : Nat) (A : List Match_t) :
    List Match_t × List Int × Bool :=
  let uf0 := UF_reset S
  let ok0 := decide (1 ≤ S)
  let sc := clusterScanI cfg A A.length A.length 1 uf0 ok0
  let asg := assignIds A A.length 1 sc.1
  (asg.1, asg.2, sc.2)

/-- Group the cluster-sorted matches into runs of equal `cluster_id`
(lines 461-470). -/
def groupRuns (fuel : Nat) (A : List Match_t) : List (List Match_t) :=
  match fuel, A with
  | 0, _ => []
  | _ + 1, [] => []
  | f + 1, m :: rest =>
    let run := rest.takeWhile fun x => x.cluster_id == m.cluster_id
    let rest1 := rest.dropWhile fun x => x.cluster_id == m.cluster_id
    (m :: run) :: groupRuns f rest1

/-- `Process_Matches` (lines 411-504): on an empty batch print the label
alone; otherwise sort by `Start2`, filter, cluster, sort by cluster, process
every cluster (switching the label to `"#"` once anything was printed), and
print the label alone if no cluster printed.  Returns the output lines and
the total number of chains printed. -/
def Process_Matches (cfg : Config) (A : List Match_t) (label : String) :
    List OutLine × Nat :=
  if A.length = 0 then ([OutLine.lbl label], 0)
  else
    let A1 := sortLE byStart2LE A
    let A2 := Filter_Matches A1
    let cp := clusterPhase cfg A.length A2
    let A3 := sortLE byClusterLE cp.1
    let groups := groupRuns A3.length A3
    let res := groups.foldl
      (fun st g =>
        let r := Process_Cluster cfg st.2.2 g
        (st.1 ++ r.1, st.2.1 + r.2.1,
          if st.2.1 + r.2.1 > 0 then "#" else st.2.2))
      (([], 0, label) : List OutLine × Nat × String)
    if res.2.1 = 0 then (res.1 ++ [OutLine.lbl res.2.2], res.2.1)
    else (res.1, res.2.1)

/-! ## Specification-level definitions used to state the verified properties -/

/-- The diagonal of an anchor (spec §3): `start_query - start_ref`,
i.e. `Start2 - Start1` in the source's naming. -/
def diag (m : Match_t) : Int :=
  m.Start2 - m.Start1

/-- The match list is sorted by `Start2` (the precondition of
`Filter_Matches` and of the clustering scan). -/
def sortedByStart2 (A : List Match_t) : Prop :=
  A.Pairwise fun x y => x.Start2 ≤ y.Start2

/-- The chain reconstructed by following `Simple_From` links down from
index `i`, in ascending (emission) order, with the `Good` mark set — the
specification-side description of what `markWalk` marks. -/
def chainList (A : List Match_t) (fuel : Nat) (i : Int) : List Match_t :=
  match fuel with
  | 0 => []
  | f + 1 =>
    if i < 0 then []
    else
      chainList A f (mget A i.toNat).Simple_From ++
        [{ mget A i.toNat with Good := true }]

/-- The invariant established by the DP pass: every anchor either has no
predecessor (and zero adjustment), or points to an earlier anchor `j` and
its recorded adjustment dominates the overlap with `j` on both axes. -/
def DPInv (A : List Match_t) : Prop :=
  ∀ k, k < A.length →
    ((mget A k).Simple_From = -1 ∧ (mget A k).Simple_Adj = 0) ∨
    ∃ j : Nat, j < k ∧ (mget A k).Simple_From = Int.ofNat j ∧
      (mget A j).Start1 + (mget A j).Len - (mget A k).Start1 ≤ (mget A k).Simple_Adj ∧
      (mget A j).Start2 + (mget A j).Len - (mget A k).Start2 ≤ (mget A k).Simple_Adj

/-- Pointwise form of "sorted by `Start2`" (the form used in loop
invariants; equivalent to `sortedByStart2` via `List.pairwise_iff_getElem`). -/
def Start2Sorted (A : List Match_t) : Prop :=
  ∀ p q : Nat, p ≤ q → q < A.length → (mget A p).Start2 ≤ (mget A q).Start2

/-- The guarantee the inner filter scan establishes for its head anchor `i`:
if `i` is still live, then every later anchor on the same diagonal whose
`Start2` lies within `i`'s (final) query range has been dropped. -/
def InnerDone (A : List Match_t) (i : Nat) : Prop :=
  (mget A i).Good = true →
  ∀ q, i < q → q < A.length → diag (mget A q) = diag (mget A i) →
    (mget A q).Start2 ≤ (mget A i).Start2 + (mget A i).Len →
    (mget A q).Good = false

/-- What a step of the filter scan with head `i` may do to the array:
nothing changes except that `A[i].Len` may change, `Good` flags may be
cleared, and `Tentative` flags may change. -/
def stepOK (i : Nat) (A A' : List Match_t) : Prop :=
  A'.length = A.length ∧
  (∀ k, (mget A' k).Start1 = (mget A k).Start1) ∧
  (∀ k, (mget A' k).Start2 = (mget A k).Start2) ∧
  (∀ k, k ≠ i → (mget A' k).Len = (mget A k).Len) ∧
  (∀ k, (mget A' k).Good = true → (mget A k).Good = true)

/-- The chain non-overlap relation between an earlier and the next emitted
anchor of one chain: the next anchor's adjusted start (on each axis) is at
least the earlier anchor's end.  (The earlier anchor's adjusted end equals
its raw end, since shifting by `adj` and shrinking by `adj` cancel.) -/
def chainR (p q : Match_t) : Prop :=
  p.Start1 + p.Len ≤ q.Start1 + q.Simple_Adj ∧
  p.Start2 + p.Len ≤ q.Start2 + q.Simple_Adj

/-- The property the DP update establishes for one anchor `cur` computed
from predecessors `acc` for the original anchor `m`. -/
def dpProp (acc : List Match_t) (m cur : Match_t) : Prop :=
  (cur.Simple_From = -1 ∧ cur.Simple_Adj = 0) ∨
  ∃ j : Nat, j < acc.length ∧ cur.Simple_From = Int.ofNat j ∧
    (mget acc j).Start1 + (mget acc j).Len - m.Start1 ≤ cur.Simple_Adj ∧
    (mget acc j).Start2 + (mget acc j).Len - m.Start2 ≤ cur.Simple_Adj

/-- The proximity relation of the Cluster Builder (spec §4.2, code lines
444-449), on 1-based match indices: the later anchor `j` is proximate to
the earlier anchor `i` iff the query gap is at most `Max_Separation` and
the diagonal difference is within the (gap-dependent) tolerance. -/
def prox (cfg : Config) (A : List Match_t) (i j : Nat) : Prop :=
  1 ≤ i ∧ i < j ∧ j ≤ A.length ∧
  (mget A (j - 1)).Start2 - ((mget A (i - 1)).Start2 + (mget A (i - 1)).Len) ≤
    cfg.Max_Separation ∧
  |diag (mget A (j - 1)) - diag (mget A (i - 1))| ≤
    max cfg.Fixed_Separation
      (cfg.sepFactorMul
        ((mget A (j - 1)).Start2 - ((mget A (i - 1)).Start2 + (mget A (i - 1)).Len)))

instance (cfg : Config) (A : List Match_t) (i j : Nat) : Decidable (prox cfg A i j) := by
  unfold prox; infer_instance

/-- Bounded reachability in the union-find parent array: `ReachesN N uf d i r`
says that following parent links from `i` for `d` steps stays inside
`[1, N]` and ends at the root `r` (a negative entry). -/
inductive ReachesN (N : Nat) (uf : List Int) : Nat → Nat → Nat → Prop where
  | root (i : Nat) : uf.getD i 0 < 0 → ReachesN N uf 0 i i
  | step (d i r : Nat) : 0 < uf.getD i 0 → (uf.getD i 0).toNat ≤ N →
      ReachesN N uf d (uf.getD i 0).toNat r → ReachesN N uf (d + 1) i r

/-- The number of elements of `[1, N]` whose representative under `rf`
is `r`. -/
def classCard (N : Nat) (rf : Nat → Nat) (r : Nat) : Nat :=
  ((List.range' 1 N).filter fun j => rf j == r).length

/-- `uf` represents the partition of `[1, N]` whose representative
function is `rf`: the array is long enough, every element reaches its
representative (a root in `[1, N]`) along a chain shorter than its class. -/
def IsRepr (uf : List Int) (N : Nat) (rf : Nat → Nat) : Prop :=
  N + 1 ≤ uf.length ∧
  ∀ i, 1 ≤ i → i ≤ N →
    (1 ≤ rf i ∧ rf i ≤ N) ∧ uf.getD (rf i) 0 < 0 ∧
    ∃ d, ReachesN N uf d i (rf i) ∧ d + 1 ≤ classCard N rf (rf i)

/-- What path compression towards the root `r` may do to the array: every
entry is either unchanged, or was a positive (non-root) entry on a path to
`r` and now points directly at `r`. -/
def UFPres (N : Nat) (uf uf' : List Int) (r : Nat) : Prop :=
  uf'.length = uf.length ∧
  ∀ y : Nat, uf'.getD y 0 = uf.getD y 0 ∨
    (0 < uf.getD y 0 ∧ uf'.getD y 0 = (r : Int) ∧ y ≠ r ∧ ∃ e, ReachesN N uf e y r)

/-- Merging two classes at the level of representative functions: every
element represented by `a` or `b` becomes represented by the winner `w`. -/
def mergeRf (rf : Nat → Nat) (a b w : Nat) : Nat → Nat :=
  fun x => if rf x = a ∨ rf x = b then w else rf x

/-- `rf` realizes exactly the equivalence generated by the relation `R`
on `[1, N]`. -/
def CharP (N : Nat) (rf : Nat → Nat) (R : Nat → Nat → Prop) : Prop :=
  ∀ x y, 1 ≤ x → x ≤ N → 1 ≤ y → y ≤ N →
    (rf x = rf y ↔ Relation.EqvGen R x y)

/-! ## Basic lemmas about the embedding -/

theorem mget_set (A : List Match_t) (n k : Nat) (x : Match_t) :
    mget (A.set n x) k = if n = k ∧ n < A.length then x else mget A k := by
  simp only [mget, List.getD_eq_getElem?_getD, List.getElem?_set]
  by_cases h1 : n = k
  · subst h1
    by_cases h2 : n < A.length
    · simp [h2]
    · simp [h2, List.getElem?_eq_none (by omega : A.length ≤ n)]
  · simp [h1]

theorem mget_set_self (A : List Match_t) (n : Nat) (x : Match_t) (h : n < A.length) :
    mget (A.set n x) n = x := by
  simp [mget_set, h]

theorem mget_set_ne (A : List Match_t) (n k : Nat) (x : Match_t) (h : n ≠ k) :
    mget (A.set n x) k = mget A k := by
  simp [mget_set, h]

theorem mget_append_left (A B : List Match_t) (k : Nat) (h : k < A.length) :
    mget (A ++ B) k = mget A k := by
  simp [mget, List.getD_eq_getElem?_getD, List.getElem?_append, h]

theorem Filter_innerBody_length (A : List Match_t) (i j : Nat) :
    (Filter_innerBody A i j).1.length = A.length := by
  simp only [Filter_innerBody]
  repeat' split
  all_goals first
    | rfl
    | simp [List.length_set]

theorem Filter_innerLoop_length (i fuel : Nat) :
    ∀ (A : List Match_t) (j : Nat), (Filter_innerLoop A i fuel j).length = A.length := by
  induction fuel with
  | zero => intro A j; rfl
  | succ f ih =>
    intro A j
    simp only [Filter_innerLoop]
    split
    · split
      · exact Filter_innerBody_length A i j
      · rw [ih, Filter_innerBody_length]
    · rfl

theorem Filter_outerLoop_length (fuel : Nat) :
    ∀ (A : List Match_t) (i : Nat), (Filter_outerLoop A fuel i).length = A.length := by
  induction fuel with
  | zero => intro A i; rfl
  | succ f ih =>
    intro A i
    rw [Filter_outerLoop]
    split
    · rw [ih]
      split
      · exact Filter_innerLoop_length _ _ _ _
      · rfl
    · rfl

theorem Filter_Matches_length_le (A : List Match_t) :
    (Filter_Matches A).length ≤ A.length := by
  unfold Filter_Matches
  simp only [List.length_map]
  refine le_trans (List.length_filter_le _ _) ?_
  rw [Filter_outerLoop_length]
  simp

/-! ## Claim C3: flag state after the Match Filter -/

/-- C3, counterexample.  The claim says every surviving anchor has both the
kept/live (`Good`) flag and the `Tentative` flag cleared after the filter.
On the sorted input `[(0,0,10), (0,5,10)]` (equal lengths, same `start_ref`,
overlap 5 ≥ 10/2) the second anchor survives with `Tentative` still set:
the compaction loop of `Filter_Matches` resets only `Good` (lines 288-289). -/
theorem claim_C3_cex :
    ¬ ∀ m ∈ Filter_Matches [mkMatch 0 0 10, mkMatch 0 5 10],
        m.Good = false ∧ m.Tentative = false := by
  decide

/-- C3, amended: when the Match Filter finishes, every surviving anchor has
its kept/live (`Good`) flag cleared; the `Tentative` flag is not reset and
may remain set. -/
theorem claim_C3 (A : List Match_t) :
    ∀ m ∈ Filter_Matches A, m.Good = false := by
  intro m hm
  unfold Filter_Matches at hm
  simp only [List.mem_map] at hm
  obtain ⟨a, -, rfl⟩ := hm
  rfl

/-- Witness for C3 at a concrete input. -/
theorem claim_C3_witness :
    (mget (Filter_Matches [mkMatch 0 0 10, mkMatch 0 5 10]) 0).Good = false :=
  claim_C3 [mkMatch 0 0 10, mkMatch 0 5 10] _ (by decide)

/-! ## Claim C4: the Match Filter is not idempotent -/

/-- C4, counterexample.  The input `[(0,0,4), (0,3,4), (4,4,6)]` is sorted
by `start_query` with distinct values.  The first run merges the third
anchor into the first (same diagonal, extending its length to 10) and keeps
the second.  On the second run the extended first anchor now sees the
second as a contained shorter anchor (overlap 7 ≥ 4/2) and drops it, so the
anchor count shrinks from 2 to 1 — re-running the filter is not a no-op. -/
theorem claim_C4_cex :
    List.Pairwise (fun x y => x.Start2 < y.Start2)
        [mkMatch 0 0 4, mkMatch 0 3 4, mkMatch 4 4 6] ∧
    (Filter_Matches (Filter_Matches [mkMatch 0 0 4, mkMatch 0 3 4, mkMatch 4 4 6])).length ≠
      (Filter_Matches [mkMatch 0 0 4, mkMatch 0 3 4, mkMatch 4 4 6]).length := by
  constructor
  · decide
  · decide

/-- C4, amended: re-running the Match Filter on its own output can drop
further anchors (see the counterexample: a merge that extends an anchor's
length makes it newly contain a neighbour), but it never adds anchors: the
anchor count never increases. -/
theorem claim_C4 (A : List Match_t) :
    (Filter_Matches (Filter_Matches A)).length ≤ (Filter_Matches A).length :=
  Filter_Matches_length_le _

/-! ## Structure of one chain-extraction pass -/

theorem mget_eq_getElem (A : List Match_t) (n : Nat) (h : n < A.length) :
    mget A n = A[n] := by
  simp [mget, List.getD_eq_getElem?_getD, List.getElem?_eq_getElem h]

theorem mget_mem (A : List Match_t) (n : Nat) (h : n < A.length) :
    mget A n ∈ A := by
  rw [mget_eq_getElem A n h]
  exact List.getElem_mem h

theorem dp_foldl_length (A acc : List Match_t) :
    (A.foldl (fun acc m => acc ++ [dpBest acc m]) acc).length = acc.length + A.length := by
  induction A generalizing acc with
  | nil => simp
  | cons m tl ih => simp [List.foldl_cons, ih]; omega

theorem dp_length (A : List Match_t) : (dp A).length = A.length := by
  unfold dp
  rw [dp_foldl_length]
  simp

theorem dpBest_payload_fold (m : Match_t) (l : List (Nat × Match_t)) :
    ∀ cur : Match_t, payload cur = payload m →
      payload (l.foldl
        (fun cur jm =>
          let j := jm.1
          let mj := jm.2
          let Olap1 := mj.Start1 + mj.Len - cur.Start1
          let OlapA := max 0 Olap1
          let Olap2 := mj.Start2 + mj.Len - cur.Start2
          let Olap := max OlapA Olap2
          let Pen := Olap + |((cur.Start2 - cur.Start1) - (mj.Start2 - mj.Start1))|
          if mj.Simple_Score + cur.Len - Pen > cur.Simple_Score then
            { cur with
                Simple_From := Int.ofNat j
                Simple_Score := mj.Simple_Score + cur.Len - Pen
                Simple_Adj := Olap }
          else cur)
        cur) = payload m := by
  induction l with
  | nil => intro cur h; exact h
  | cons p tl ih =>
    intro cur h
    simp only [List.foldl_cons]
    apply ih
    dsimp only
    split
    · exact h
    · exact h

theorem dpBest_payload (acc : List Match_t) (m : Match_t) :
    payload (dpBest acc m) = payload m := by
  unfold dpBest
  exact dpBest_payload_fold m acc.enum _ rfl

theorem dp_payload (A : List Match_t) : (dp A).map payload = A.map payload := by
  suffices h : ∀ acc : List Match_t,
      (A.foldl (fun acc m => acc ++ [dpBest acc m]) acc).map payload =
        acc.map payload ++ A.map payload by
    have := h []
    simpa [dp] using this
  induction A with
  | nil => intro acc; simp
  | cons m tl ih =>
    intro acc
    simp only [List.foldl_cons, List.map_cons]
    rw [ih]
    simp [dpBest_payload]

theorem map_payload_set_preserve (A : List Match_t) (n : Nat) (x : Match_t)
    (h : payload x = payload (mget A n)) :
    (A.set n x).map payload = A.map payload := by
  refine List.ext_getElem? fun k => ?_
  simp only [List.getElem?_map, List.getElem?_set]
  by_cases hk : n = k
  · subst hk
    by_cases hl : n < A.length
    · rw [mget_eq_getElem A n hl] at h
      simp [hl, h, List.getElem?_eq_getElem hl]
    · simp [hl, List.getElem?_eq_none (by omega : A.length ≤ n)]
  · simp [hk]

theorem markWalk_length (fuel : Nat) :
    ∀ (A : List Match_t) (i : Int) (t h l : Int),
      (markWalk A fuel i t h l).1.length = A.length := by
  induction fuel with
  | zero => intro A i t h l; rfl
  | succ f ih =>
    intro A i t h l
    rw [markWalk]
    split
    · rfl
    · rw [ih]
      simp [List.length_set]

theorem markWalk_payload (fuel : Nat) :
    ∀ (A : List Match_t) (i : Int) (t h l : Int),
      (markWalk A fuel i t h l).1.map payload = A.map payload := by
  induction fuel with
  | zero => intro A i t h l; rfl
  | succ f ih =>
    intro A i t h l
    rw [markWalk]
    split
    · rfl
    · rw [ih, map_payload_set_preserve]
      rfl

theorem markWalk_good_mono (fuel : Nat) :
    ∀ (A : List Match_t) (i : Int) (t h l : Int) (k : Nat),
      (mget A k).Good = true →
      (mget (markWalk A fuel i t h l).1 k).Good = true := by
  induction fuel with
  | zero => intro A i t h l k hk; exact hk
  | succ f ih =>
    intro A i t h l k hk
    rw [markWalk]
    split
    · exact hk
    · apply ih
      rw [mget_set]
      split
      · rfl
      · exact hk

theorem markWalk_good_at (A : List Match_t) (f : Nat) (i : Int) (t h l : Int)
    (hi : ¬ i < 0) (hlen : i.toNat < A.length) :
    (mget (markWalk A (f + 1) i t h l).1 i.toNat).Good = true := by
  rw [markWalk]
  rw [if_neg hi]
  apply markWalk_good_mono
  rw [mget_set_self _ _ _ hlen]

theorem bestIdx_fold_lt (A : List Match_t) (n : Nat) (l : List (Nat × Match_t))
    (hl : ∀ p ∈ l, p.1 < n) :
    ∀ b : Nat, b < n →
      l.foldl (fun b im => if im.2.Simple_Score > (mget A b).Simple_Score then im.1 else b) b < n := by
  induction l with
  | nil => intro b hb; exact hb
  | cons p tl ih =>
    intro b hb
    simp only [List.foldl_cons]
    apply ih
    · intro q hq; exact hl q (List.mem_cons_of_mem p hq)
    · dsimp only
      split
      · exact hl p (List.mem_cons_self p tl)
      · exact hb

theorem bestIdx_lt (A : List Match_t) (h : A ≠ []) : bestIdx A < A.length := by
  unfold bestIdx
  apply bestIdx_fold_lt
  · intro p hp
    obtain ⟨p1, p2⟩ := p
    exact (List.mem_enum hp).1
  · exact List.length_pos.mpr h

theorem onePass_chain_eq (cfg : Config) (label : String) (A : List Match_t) :
    (onePass cfg label A).chain =
      ((markWalk (dp A) (dp A).length (Int.ofNat (bestIdx (dp A))) 0 LONG_MIN LONG_MAX).1).filter
        (fun m => m.Good) := by
  simp only [onePass]
  repeat' split
  all_goals rfl

theorem onePass_rest_eq (cfg : Config) (label : String) (A : List Match_t) :
    (onePass cfg label A).rest =
      ((markWalk (dp A) (dp A).length (Int.ofNat (bestIdx (dp A))) 0 LONG_MIN LONG_MAX).1).filter
        (fun m => !m.Good) := by
  simp only [onePass]
  repeat' split
  all_goals rfl

theorem onePass_rest_lt (cfg : Config) (label : String) (A : List Match_t) (h : A ≠ []) :
    (onePass cfg label A).rest.length < A.length := by
  rw [onePass_rest_eq]
  set A1 := dp A with hA1
  set A2 := (markWalk A1 A1.length (Int.ofNat (bestIdx A1)) 0 LONG_MIN LONG_MAX).1 with hA2
  have hlen2 : A2.length = A.length := by
    rw [hA2, markWalk_length, dp_length]
  have hlen1 : A1.length = A.length := dp_length A
  have hA1ne : A1 ≠ [] := by
    intro hnil
    apply h
    apply List.length_eq_zero.mp
    rw [← hlen1, hnil]
    rfl
  have hb : bestIdx A1 < A1.length := bestIdx_lt A1 hA1ne
  obtain ⟨n, hn⟩ : ∃ n, A1.length = n + 1 := by
    have hpos : 0 < A1.length := List.length_pos.mpr hA1ne
    exact ⟨A1.length - 1, by omega⟩
  have hgood : (mget A2 (bestIdx A1)).Good = true := by
    rw [hA2, hn]
    have := markWalk_good_at A1 n (Int.ofNat (bestIdx A1)) 0 LONG_MIN LONG_MAX
      (by simp) (by simpa using hb)
    simpa using this
  rw [← hlen2]
  rw [List.length_filter_lt_length_iff_exists]
  refine ⟨mget A2 (bestIdx A1), mget_mem A2 _ (by omega), ?_⟩
  simp [hgood]

theorem onePass_perm (cfg : Config) (label : String) (A : List Match_t) :
    (((onePass cfg label A).chain ++ (onePass cfg label A).rest).map payload).Perm
      (A.map payload) := by
  rw [onePass_chain_eq, onePass_rest_eq]
  set A2 := (markWalk (dp A) (dp A).length (Int.ofNat (bestIdx (dp A))) 0 LONG_MIN LONG_MAX).1
    with hA2
  have hp : ((A2.filter fun m => m.Good) ++ (A2.filter fun m => !m.Good)).Perm A2 :=
    List.filter_append_perm _ A2
  have hmap := hp.map payload
  have : A2.map payload = A.map payload := by
    rw [hA2, markWalk_payload, dp_payload]
  rw [this] at hmap
  exact hmap

theorem Process_Cluster_aux_perm (cfg : Config) (fuel : Nat) :
    ∀ (label : String) (A : List Match_t), A.length ≤ fuel →
      (((Process_Cluster_aux cfg fuel label A).2.2.flatten).map payload).Perm (A.map payload) := by
  induction fuel with
  | zero =>
    intro label A hA
    have : A = [] := List.length_eq_zero.mp (Nat.le_zero.mp hA)
    subst this
    exact List.Perm.refl _
  | succ f ih =>
    intro label A hA
    rw [Process_Cluster_aux]
    split
    · have : A = [] := List.length_eq_zero.mp (by assumption)
      subst this
      exact List.Perm.refl _
    · rename_i hne
      have hne' : A ≠ [] := by
        intro hnil; exact hne (by simp [hnil])
      dsimp only
      have hrest := onePass_rest_lt cfg label A hne'
      have hih := ih (if (onePass cfg label A).printed then "#" else label)
        ((onePass cfg label A).rest) (by omega)
      rw [List.flatten_cons, List.map_append]
      refine List.Perm.trans ?_ (onePass_perm cfg label A)
      rw [List.map_append]
      exact hih.append_left _

/-! ## Claim C9: each extraction pass strictly shrinks the working set -/

/-- C9, confirmed: one iteration of the `do`-`while` loop of
`Process_Cluster` on a non-empty working set always consumes at least one
anchor (the selected terminus is marked `Good` and compacted away), so the
working-set size strictly decreases until it reaches zero and the loop
terminates. -/
theorem claim_C9 (cfg : Config) (label : String) (A : List Match_t) (h : A ≠ []) :
    (onePass cfg label A).rest.length < A.length :=
  onePass_rest_lt cfg label A h

/-- Witness for C9 at a concrete one-anchor cluster. -/
theorem claim_C9_witness :
    (onePass defaultConfig "lbl" [mkMatch 0 0 10]).rest.length < 1 :=
  claim_C9 defaultConfig "lbl" [mkMatch 0 0 10] (by decide)

/-! ## Claim C2: accounting of a cluster's anchors across chains -/

/-- C2, counterexample.  The claim says every anchor of a processed cluster
appears in exactly one *emitted* chain.  On the one-anchor cluster
`[(0,0,10)]` under the default configuration the chain score 10 is below
the minimum output score 200: the anchor is consumed (it appears in the one
extracted chain) but nothing is emitted, so it appears in no emitted chain. -/
theorem claim_C2_cex :
    (Process_Cluster defaultConfig "lbl" [mkMatch 0 0 10]).1 = [] ∧
    (Process_Cluster defaultConfig "lbl" [mkMatch 0 0 10]).2.2.flatten.length = 1 := by
  constructor
  · decide
  · decide

/-- C2, amended: every anchor of a processed cluster is consumed by exactly
one *extracted* chain — the concatenation of the chains extracted by
`Process_Cluster` is a permutation of the cluster (as multisets of anchor
payloads), so no anchor is lost and none is taken twice; a chain (and
hence its anchors) is emitted only when its score reaches the minimum, so
anchors of below-threshold chains appear in no emitted chain. -/
theorem claim_C2 (cfg : Config) (label : String) (A : List Match_t) :
    (((Process_Cluster cfg label A).2.2.flatten).map payload).Perm (A.map payload) :=
  Process_Cluster_aux_perm cfg A.length label A le_rfl

/-! ## Output accounting for Process_Matches (claim C8) -/

theorem onePass_lines_of_not_printed (cfg : Config) (label : String) (A : List Match_t)
    (h : (onePass cfg label A).printed = false) : (onePass cfg label A).lines = [] := by
  revert h
  simp only [onePass]
  repeat' split
  all_goals simp

theorem onePass_lines_of_printed (cfg : Config) (label : String) (A : List Match_t)
    (h : (onePass cfg label A).printed = true) : (onePass cfg label A).lines ≠ [] := by
  revert h
  simp only [onePass]
  repeat' split
  all_goals simp

theorem Process_Cluster_aux_lines_of_ct_zero (cfg : Config) (fuel : Nat) :
    ∀ (label : String) (A : List Match_t),
      (Process_Cluster_aux cfg fuel label A).2.1 = 0 →
      (Process_Cluster_aux cfg fuel label A).1 = [] := by
  induction fuel with
  | zero => intro label A _; rfl
  | succ f ih =>
    intro label A h
    rw [Process_Cluster_aux] at h ⊢
    by_cases hA : A.length = 0
    · rw [if_pos hA]
    · rw [if_neg hA] at h ⊢
      dsimp only at h ⊢
      have hpr : (onePass cfg label A).printed = false := by
        by_contra hc
        rw [Bool.not_eq_false] at hc
        rw [if_pos hc] at h
        omega
      rw [hpr] at h ⊢
      simp only [Bool.false_eq_true, if_false, Nat.zero_add] at h ⊢
      rw [onePass_lines_of_not_printed cfg label A hpr, ih _ _ h]
      rfl

theorem Process_Cluster_aux_lines_of_ct_pos (cfg : Config) (fuel : Nat) :
    ∀ (label : String) (A : List Match_t),
      (Process_Cluster_aux cfg fuel label A).2.1 ≠ 0 →
      (Process_Cluster_aux cfg fuel label A).1 ≠ [] := by
  induction fuel with
  | zero => intro label A h; exact absurd rfl h
  | succ f ih =>
    intro label A h
    rw [Process_Cluster_aux] at h ⊢
    by_cases hA : A.length = 0
    · rw [if_pos hA] at h
      exact absurd rfl h
    · rw [if_neg hA] at h ⊢
      dsimp only at h ⊢
      by_cases hpr : (onePass cfg label A).printed = true
      · have := onePass_lines_of_printed cfg label A hpr
        intro hc
        exact this (List.append_eq_nil.mp hc).1
      · rw [Bool.not_eq_true] at hpr
        rw [hpr] at h ⊢
        simp only [Bool.false_eq_true, if_false, Nat.zero_add] at h ⊢
        have := ih label (onePass cfg label A).rest h
        intro hc
        exact this (List.append_eq_nil.mp hc).2

theorem Process_Cluster_lines_of_ct_zero (cfg : Config) (label : String) (A : List Match_t)
    (h : (Process_Cluster cfg label A).2.1 = 0) : (Process_Cluster cfg label A).1 = [] :=
  Process_Cluster_aux_lines_of_ct_zero cfg A.length label A h

theorem Process_Cluster_lines_of_ct_pos (cfg : Config) (label : String) (A : List Match_t)
    (h : (Process_Cluster cfg label A).2.1 ≠ 0) : (Process_Cluster cfg label A).1 ≠ [] :=
  Process_Cluster_aux_lines_of_ct_pos cfg A.length label A h

theorem groups_fold_inv (cfg : Config) (label0 : String) (groups : List (List Match_t)) :
    ∀ st : List OutLine × Nat × String,
      (st.2.1 = 0 → st.1 = [] ∧ st.2.2 = label0) →
      (st.2.1 ≠ 0 → st.1 ≠ []) →
      ((groups.foldl (fun st g =>
          let r := Process_Cluster cfg st.2.2 g
          (st.1 ++ r.1, st.2.1 + r.2.1, if st.2.1 + r.2.1 > 0 then "#" else st.2.2)) st).2.1 = 0 →
        (groups.foldl (fun st g =>
          let r := Process_Cluster cfg st.2.2 g
          (st.1 ++ r.1, st.2.1 + r.2.1, if st.2.1 + r.2.1 > 0 then "#" else st.2.2)) st).1 = [] ∧
        (groups.foldl (fun st g =>
          let r := Process_Cluster cfg st.2.2 g
          (st.1 ++ r.1, st.2.1 + r.2.1, if st.2.1 + r.2.1 > 0 then "#" else st.2.2)) st).2.2 = label0) ∧
      ((groups.foldl (fun st g =>
          let r := Process_Cluster cfg st.2.2 g
          (st.1 ++ r.1, st.2.1 + r.2.1, if st.2.1 + r.2.1 > 0 then "#" else st.2.2)) st).2.1 ≠ 0 →
        (groups.foldl (fun st g =>
          let r := Process_Cluster cfg st.2.2 g
          (st.1 ++ r.1, st.2.1 + r.2.1, if st.2.1 + r.2.1 > 0 then "#" else st.2.2)) st).1 ≠ []) := by
  induction groups with
  | nil =>
    intro st h0 h1
    exact ⟨h0, h1⟩
  | cons g tl ih =>
    intro st h0 h1
    simp only [List.foldl_cons]
    apply ih
    · intro hz
      dsimp only at hz ⊢
      have hst : st.2.1 = 0 := by omega
      have hg : (Process_Cluster cfg st.2.2 g).2.1 = 0 := by omega
      obtain ⟨he, hl⟩ := h0 hst
      refine ⟨?_, ?_⟩
      · rw [he, Process_Cluster_lines_of_ct_zero cfg _ _ hg]
        rfl
      · rw [if_neg (by omega)]
        exact hl
    · intro hnz
      dsimp only at hnz ⊢
      by_cases hst : st.2.1 = 0
      · have hg : (Process_Cluster cfg st.2.2 g).2.1 ≠ 0 := by omega
        have := Process_Cluster_lines_of_ct_pos cfg _ _ hg
        intro hc
        exact this (List.append_eq_nil.mp hc).2
      · have := h1 hst
        intro hc
        exact this (List.append_eq_nil.mp hc).1

/-! ## Claim C8: queries without printable chains yield exactly the label -/

/-- C8, confirmed: whenever a query's processing prints no chain (the
returned chain count is 0 — in particular for an empty anchor batch, and
whenever every cluster's chains score below the minimum), the output is
exactly the label line and nothing else; and every query produces at least
one output record. -/
theorem claim_C8 (cfg : Config) (A : List Match_t) (label : String) :
    ((Process_Matches cfg A label).2 = 0 →
      (Process_Matches cfg A label).1 = [OutLine.lbl label]) ∧
    (Process_Matches cfg A label).1 ≠ [] := by
  by_cases hA : A.length = 0
  · have hPM : Process_Matches cfg A label = ([OutLine.lbl label], 0) := by
      rw [Process_Matches, if_pos hA]
    rw [hPM]
    exact ⟨fun _ => rfl, by simp⟩
  · set res := (groupRuns
        (sortLE byClusterLE (clusterPhase cfg A.length (Filter_Matches (sortLE byStart2LE A))).1).length
        (sortLE byClusterLE (clusterPhase cfg A.length (Filter_Matches (sortLE byStart2LE A))).1)).foldl
      (fun st g =>
        let r := Process_Cluster cfg st.2.2 g
        (st.1 ++ r.1, st.2.1 + r.2.1, if st.2.1 + r.2.1 > 0 then "#" else st.2.2))
      (([], 0, label) : List OutLine × Nat × String) with hres
    have hinv := groups_fold_inv cfg label
      (groupRuns
        (sortLE byClusterLE (clusterPhase cfg A.length (Filter_Matches (sortLE byStart2LE A))).1).length
        (sortLE byClusterLE (clusterPhase cfg A.length (Filter_Matches (sortLE byStart2LE A))).1))
      ([], 0, label) (fun _ => ⟨rfl, rfl⟩) (fun h => absurd rfl h)
    obtain ⟨hz, hnz⟩ := hinv
    have hPM : Process_Matches cfg A label =
        (if res.2.1 = 0 then (res.1 ++ [OutLine.lbl res.2.2], res.2.1) else (res.1, res.2.1)) := by
      rw [Process_Matches, if_neg hA]
    rw [hPM]
    by_cases hc : res.2.1 = 0
    · obtain ⟨he, hl⟩ := hz hc
      rw [if_pos hc, he, hl]
      exact ⟨fun _ => rfl, by simp⟩
    · rw [if_neg hc]
      exact ⟨fun h0 => absurd h0 hc, hnz hc⟩

/-- Witness for C8 at the empty batch. -/
theorem claim_C8_witness :
    (Process_Matches defaultConfig [] "q").1 = [OutLine.lbl "q"] ∧
    (Process_Matches defaultConfig [] "q").1 ≠ [] := by
  have h := claim_C8 defaultConfig [] "q"
  exact ⟨h.1 (by decide), h.2⟩

/-! ## Claim C1: the two-anchor default-configuration scenario -/

/-- C1, counterexample.  The claim says the chain over `(0,0,10)` and
`(20,20,10)` is emitted under the default configuration.  It is not: its
score 20 is below the default minimum output score 200, so the whole output
for the query is the label line alone and the printed-chain count is 0 —
no anchor record (and in particular no `"none"`-adjusted record) appears. -/
theorem claim_C1_cex :
    Process_Matches defaultConfig [mkMatch 0 0 10, mkMatch 20 20 10] "lbl" =
      ([OutLine.lbl "lbl"], 0) := by
  decide

/-- C1, amended: under the default configuration the engine puts the two
anchors `(0,0,10)` and `(20,20,10)` into a single cluster (equal cluster
ids), extracts from it a single chain containing both anchors with chain
score 20 (the second anchor's DP score, with adjustment 0); but because
20 is below the default minimum output score 200 the chain is *not*
emitted, and the query's output is the label line alone. -/
theorem claim_C1 :
    ((mget (clusterPhase defaultConfig 2
        (Filter_Matches (sortLE byStart2LE [mkMatch 0 0 10, mkMatch 20 20 10]))).1 0).cluster_id =
      (mget (clusterPhase defaultConfig 2
        (Filter_Matches (sortLE byStart2LE [mkMatch 0 0 10, mkMatch 20 20 10]))).1 1).cluster_id) ∧
    (Process_Cluster defaultConfig "lbl"
        (sortLE byClusterLE (clusterPhase defaultConfig 2
          (Filter_Matches (sortLE byStart2LE [mkMatch 0 0 10, mkMatch 20 20 10]))).1)).2.2.map
      (List.map payload) = [[(0, 0, 10), (20, 20, 10)]] ∧
    (mget ((Process_Cluster defaultConfig "lbl"
        (sortLE byClusterLE (clusterPhase defaultConfig 2
          (Filter_Matches (sortLE byStart2LE [mkMatch 0 0 10, mkMatch 20 20 10]))).1)).2.2.getD 0 [])
        1).Simple_Score = 20 ∧
    (mget ((Process_Cluster defaultConfig "lbl"
        (sortLE byClusterLE (clusterPhase defaultConfig 2
          (Filter_Matches (sortLE byStart2LE [mkMatch 0 0 10, mkMatch 20 20 10]))).1)).2.2.getD 0 [])
        1).Simple_Adj = 0 ∧
    Process_Matches defaultConfig [mkMatch 0 0 10, mkMatch 20 20 10] "lbl" =
      ([OutLine.lbl "lbl"], 0) := by
  refine ⟨by decide, by decide, by decide, by decide, by decide⟩

/-! ## The DP invariant (towards claim C5) -/

theorem mget_append_self (acc : List Match_t) (x : Match_t) :
    mget (acc ++ [x]) acc.length = x := by
  simp [mget, List.getD_eq_getElem?_getD, List.getElem?_append_right (le_refl acc.length)]

theorem dpBest_fold_spec (acc : List Match_t) (m : Match_t) (l : List (Nat × Match_t))
    (hl : ∀ p ∈ l, p.1 < acc.length ∧ p.2 = mget acc p.1) :
    ∀ cur : Match_t,
      cur.Start1 = m.Start1 → cur.Start2 = m.Start2 → cur.Len = m.Len → cur.Good = m.Good →
      dpProp acc m cur →
      (let res := l.foldl
        (fun cur jm =>
          let j := jm.1
          let mj := jm.2
          let Olap1 := mj.Start1 + mj.Len - cur.Start1
          let OlapA := max 0 Olap1
          let Olap2 := mj.Start2 + mj.Len - cur.Start2
          let Olap := max OlapA Olap2
          let Pen := Olap + |((cur.Start2 - cur.Start1) - (mj.Start2 - mj.Start1))|
          if mj.Simple_Score + cur.Len - Pen > cur.Simple_Score then
            { cur with
                Simple_From := Int.ofNat j
                Simple_Score := mj.Simple_Score + cur.Len - Pen
                Simple_Adj := Olap }
          else cur)
        cur
      res.Start1 = m.Start1 ∧ res.Start2 = m.Start2 ∧ res.Len = m.Len ∧ res.Good = m.Good ∧
        dpProp acc m res) := by
  induction l with
  | nil =>
    intro cur h1 h2 h3 h4 h5
    exact ⟨h1, h2, h3, h4, h5⟩
  | cons p tl ih =>
    intro cur h1 h2 h3 h4 h5
    simp only [List.foldl_cons]
    apply ih (fun q hq => hl q (List.mem_cons_of_mem p hq))
    all_goals dsimp only
    · split <;> simpa using h1
    · split <;> simpa using h2
    · split <;> simpa using h3
    · split <;> simpa using h4
    · split
      · right
        obtain ⟨hp1, hp2⟩ := hl p (List.mem_cons_self p tl)
        refine ⟨p.1, hp1, rfl, ?_, ?_⟩
        · rw [← hp2, h1]
          dsimp only
          exact le_trans (le_max_right 0 _) (le_max_left _ _)
        · rw [← hp2, h2]
          dsimp only
          exact le_max_right _ _
      · exact h5

theorem dpBest_spec (acc : List Match_t) (m : Match_t) :
    (dpBest acc m).Start1 = m.Start1 ∧ (dpBest acc m).Start2 = m.Start2 ∧
    (dpBest acc m).Len = m.Len ∧ (dpBest acc m).Good = m.Good ∧
    dpProp acc m (dpBest acc m) := by
  have hl : ∀ p ∈ acc.enum, p.1 < acc.length ∧ p.2 = mget acc p.1 := by
    intro p hp
    obtain ⟨p1, p2⟩ := p
    obtain ⟨h1, h2⟩ := List.mem_enum hp
    exact ⟨h1, by rw [h2, mget_eq_getElem acc p1 h1]⟩
  have := dpBest_fold_spec acc m acc.enum hl
    { m with Simple_Score := m.Len, Simple_Adj := 0, Simple_From := -1 }
    rfl rfl rfl rfl (Or.inl ⟨rfl, rfl⟩)
  exact this

theorem dp_fold_DPInv (A : List Match_t) :
    ∀ acc : List Match_t, DPInv acc →
      DPInv (A.foldl (fun acc m => acc ++ [dpBest acc m]) acc) := by
  induction A with
  | nil => intro acc h; exact h
  | cons m tl ih =>
    intro acc h
    simp only [List.foldl_cons]
    apply ih
    intro k hk
    rw [List.length_append, List.length_singleton] at hk
    by_cases hlt : k < acc.length
    · have hmk : mget (acc ++ [dpBest acc m]) k = mget acc k := mget_append_left _ _ _ hlt
      rcases h k hlt with h0 | ⟨j, hj, hfrom, ha1, ha2⟩
      · left; rw [hmk]; exact h0
      · right
        refine ⟨j, hj, ?_, ?_, ?_⟩
        · rw [hmk]; exact hfrom
        · rw [hmk, mget_append_left _ _ _ (lt_trans hj hlt)]; exact ha1
        · rw [hmk, mget_append_left _ _ _ (lt_trans hj hlt)]; exact ha2
    · have hke : k = acc.length := by omega
      subst hke
      have hmk : mget (acc ++ [dpBest acc m]) acc.length = dpBest acc m :=
        mget_append_self acc _
      obtain ⟨hs1, hs2, -, -, hprop⟩ := dpBest_spec acc m
      rcases hprop with h0 | ⟨j, hj, hfrom, ha1, ha2⟩
      · left; rw [hmk]; exact h0
      · right
        refine ⟨j, hj, ?_, ?_, ?_⟩
        · rw [hmk]; exact hfrom
        · rw [hmk, mget_append_left _ _ _ hj, hs1]
          exact ha1
        · rw [hmk, mget_append_left _ _ _ hj, hs2]
          exact ha2

theorem dp_DPInv (A : List Match_t) : DPInv (dp A) := by
  apply dp_fold_DPInv
  intro k hk
  simp at hk

theorem dp_good_false (A : List Match_t) (hA : ∀ m ∈ A, m.Good = false) :
    ∀ m ∈ dp A, m.Good = false := by
  suffices hgen : ∀ (B acc : List Match_t), (∀ m ∈ acc, m.Good = false) →
      (∀ m ∈ B, m.Good = false) →
      ∀ m ∈ B.foldl (fun acc m => acc ++ [dpBest acc m]) acc, m.Good = false by
    exact hgen A [] (by simp) hA
  intro B
  induction B with
  | nil => intro acc hacc _ m hm; exact hacc m hm
  | cons b tl ih =>
    intro acc hacc hB m hm
    simp only [List.foldl_cons] at hm
    refine ih (acc ++ [dpBest acc b]) ?_ (fun x hx => hB x (List.mem_cons_of_mem b hx)) m hm
    intro x hx
    rcases List.mem_append.mp hx with h | h
    · exact hacc x h
    · rw [List.mem_singleton.mp h]
      obtain ⟨-, -, -, hg, -⟩ := dpBest_spec acc b
      rw [hg]
      exact hB b (List.mem_cons_self b tl)

theorem dp_from_lt (A : List Match_t) :
    ∀ k, k < (dp A).length → (mget (dp A) k).Simple_From < Int.ofNat k := by
  intro k hk
  rcases dp_DPInv A k hk with ⟨h0, -⟩ | ⟨j, hj, hfrom, -, -⟩
  · rw [h0]
    exact lt_of_lt_of_le (by norm_num) (Int.ofNat_nonneg k)
  · rw [hfrom]
    simp only [Int.ofNat_eq_coe]
    exact_mod_cast hj

/-! ## The structure of the marked chain (towards claim C5) -/

theorem mget_cons_zero (a : Match_t) (tl : List Match_t) : mget (a :: tl) 0 = a := rfl

theorem mget_cons_succ (a : Match_t) (tl : List Match_t) (k : Nat) :
    mget (a :: tl) (k + 1) = mget tl k := rfl

theorem markWalk_mget (fuel : Nat) :
    ∀ (A : List Match_t) (i : Int) (t h l : Int) (k : Nat),
      mget (markWalk A fuel i t h l).1 k = mget A k ∨
      mget (markWalk A fuel i t h l).1 k = { mget A k with Good := true } := by
  induction fuel with
  | zero => intro A i t h l k; exact Or.inl rfl
  | succ f ih =>
    intro A i t h l k
    rw [markWalk]
    split
    · exact Or.inl rfl
    · set A1 := A.set i.toNat { mget A i.toNat with Good := true } with hA1
      have hstep : mget A1 k = mget A k ∨ mget A1 k = { mget A k with Good := true } := by
        rw [hA1, mget_set]
        split
        · rename_i hc
          right
          rw [hc.1]
        · exact Or.inl rfl
      rcases ih A1 (mget A i.toNat).Simple_From _ _ _ k with h1 | h1 <;>
        rcases hstep with h2 | h2
      · exact Or.inl (h1.trans h2)
      · exact Or.inr (h1.trans h2)
      · exact Or.inr (by rw [h1, h2])
      · right
        rw [h1, h2]

theorem markWalk_fields (fuel : Nat) (A : List Match_t) (i : Int) (t h l : Int) (k : Nat) :
    (mget (markWalk A fuel i t h l).1 k).Start1 = (mget A k).Start1 ∧
    (mget (markWalk A fuel i t h l).1 k).Start2 = (mget A k).Start2 ∧
    (mget (markWalk A fuel i t h l).1 k).Len = (mget A k).Len ∧
    (mget (markWalk A fuel i t h l).1 k).Simple_From = (mget A k).Simple_From ∧
    (mget (markWalk A fuel i t h l).1 k).Simple_Adj = (mget A k).Simple_Adj := by
  rcases markWalk_mget fuel A i t h l k with h1 | h1 <;> rw [h1] <;>
    exact ⟨rfl, rfl, rfl, rfl, rfl⟩

theorem markWalk_DPInv (fuel : Nat) (A : List Match_t) (i : Int) (t h l : Int)
    (hDP : DPInv A) : DPInv (markWalk A fuel i t h l).1 := by
  intro k hk
  rw [markWalk_length] at hk
  obtain ⟨-, -, -, hf, ha⟩ := markWalk_fields fuel A i t h l k
  rcases hDP k hk with ⟨h1, h2⟩ | ⟨j, hj, hfrom, ha1, ha2⟩
  · left
    rw [hf, ha]
    exact ⟨h1, h2⟩
  · right
    obtain ⟨hj1, hj2, hj3, -, -⟩ := markWalk_fields fuel A i t h l j
    obtain ⟨hk1, hk2, -, -, -⟩ := markWalk_fields fuel A i t h l k
    exact ⟨j, hj, by rw [hf]; exact hfrom,
      by rw [ha, hj1, hj3, hk1]; exact ha1,
      by rw [ha, hj2, hj3, hk2]; exact ha2⟩

theorem filter_set_true :
    ∀ (A : List Match_t) (n : Nat) (x : Match_t), n < A.length →
      (∀ k, k ≤ n → k < A.length → (mget A k).Good = false) →
      x.Good = true →
      (A.set n x).filter (fun m => m.Good) = x :: A.filter (fun m => m.Good) := by
  intro A
  induction A with
  | nil => intro n x hn; simp at hn
  | cons a tl ih =>
    intro n x hn hbelow hx
    cases n with
    | zero =>
      have ha : a.Good = false := by
        have := hbelow 0 le_rfl hn
        rwa [mget_cons_zero] at this
      simp [List.filter_cons, hx, ha]
    | succ n =>
      have ha : a.Good = false := by
        have := hbelow 0 (Nat.zero_le _) (by omega)
        rwa [mget_cons_zero] at this
      have htl : (tl.set n x).filter (fun m => m.Good) = x :: tl.filter (fun m => m.Good) := by
        apply ih n x (by simpa using hn) ?_ hx
        intro k hk hklen
        have := hbelow (k + 1) (by omega) (by simpa using Nat.succ_lt_succ hklen)
        rwa [mget_cons_succ] at this
      simp [List.filter_cons, ha, htl]

theorem chainList_neg (A : List Match_t) (f : Nat) (i : Int) (h : i < 0) :
    chainList A f i = [] := by
  cases f with
  | zero => rfl
  | succ f => rw [chainList, if_pos h]

theorem chainList_congr (bound : Nat) :
    ∀ (f : Nat) (i : Int) (A1 A : List Match_t),
      (∀ k, k < bound → mget A1 k = mget A k) →
      (∀ k, k < bound → (mget A k).Simple_From < Int.ofNat k) →
      i < (bound : Int) →
      chainList A1 f i = chainList A f i := by
  intro f
  induction f with
  | zero => intro i A1 A _ _ _; rfl
  | succ f ih =>
    intro i A1 A hag hFrom hi
    by_cases hneg : i < 0
    · rw [chainList_neg _ _ _ hneg, chainList_neg _ _ _ hneg]
    · rw [chainList, chainList, if_neg hneg, if_neg hneg]
      have hitn : i.toNat < bound := by omega
      have heq := hag i.toNat hitn
      rw [heq]
      congr 1
      apply ih _ A1 A hag hFrom
      have := hFrom i.toNat hitn
      simp only [Int.ofNat_eq_coe] at this
      omega

theorem chainList_chain' (A : List Match_t) (hDP : DPInv A) :
    ∀ (f : Nat) (i : Int), i < (A.length : Int) →
      List.Chain' chainR (chainList A f i) ∧
      (∀ x, (chainList A f i).getLast? = some x →
        0 ≤ i ∧ x = { mget A i.toNat with Good := true }) := by
  intro f
  induction f with
  | zero =>
    intro i _
    exact ⟨List.chain'_nil, by intro x hx; simp [chainList] at hx⟩
  | succ f ih =>
    intro i hi
    by_cases hneg : i < 0
    · rw [chainList_neg _ _ _ hneg]
      exact ⟨List.chain'_nil, by intro x hx; simp at hx⟩
    · rw [chainList, if_neg hneg]
      have hitn : i.toNat < A.length := by omega
      rcases hDP i.toNat hitn with ⟨h0, -⟩ | ⟨j, hj, hfrom, ha1, ha2⟩
      · rw [h0, chainList_neg _ _ _ (by norm_num)]
        refine ⟨List.chain'_singleton _, ?_⟩
        intro x hx
        rw [List.nil_append, List.getLast?_singleton] at hx
        exact ⟨not_lt.mp hneg, (Option.some_inj.mp hx).symm⟩
      · rw [hfrom]
        have hjlen : (Int.ofNat j) < (A.length : Int) := by
          simp only [Int.ofNat_eq_coe]
          exact_mod_cast lt_trans hj hitn
        obtain ⟨ihc, ihl⟩ := ih (Int.ofNat j) hjlen
        constructor
        · apply List.Chain'.append ihc (List.chain'_singleton _)
          intro p hp y hy
          simp only [List.head?_cons, Option.mem_def, Option.some_inj] at hy
          subst hy
          obtain ⟨-, hpx⟩ := ihl p (Option.mem_def.mp hp)
          rw [hpx]
          have hjtn : (Int.ofNat j).toNat = j := rfl
          rw [hjtn]
          constructor
          · show (mget A j).Start1 + (mget A j).Len ≤
              (mget A i.toNat).Start1 + (mget A i.toNat).Simple_Adj
            omega
          · show (mget A j).Start2 + (mget A j).Len ≤
              (mget A i.toNat).Start2 + (mget A i.toNat).Simple_Adj
            omega
        · intro x hx
          rw [List.getLast?_concat] at hx
          exact ⟨not_lt.mp hneg, (Option.some_inj.mp hx).symm⟩

theorem markWalk_filter (fuel : Nat) :
    ∀ (A : List Match_t) (i : Int) (t h l : Int),
      (∀ k, k < A.length → (mget A k).Simple_From < Int.ofNat k) →
      (∀ k, k < A.length → (k : Int) ≤ i → (mget A k).Good = false) →
      i < (A.length : Int) → i < (fuel : Int) →
      (markWalk A fuel i t h l).1.filter (fun m => m.Good) =
        chainList A fuel i ++ A.filter (fun m => m.Good) := by
  induction fuel with
  | zero =>
    intro A i t h l _ _ _ hfuel
    have : i < 0 := by exact_mod_cast hfuel
    rw [markWalk, chainList]
    rfl
  | succ f ih =>
    intro A i t h l hFrom hGood hrange hfuel
    rw [markWalk, chainList]
    by_cases hneg : i < 0
    · rw [if_pos hneg, if_pos hneg]
      rfl
    · rw [if_neg hneg, if_neg hneg]
      have h0i : 0 ≤ i := not_lt.mp hneg
      have hitn : i.toNat < A.length := by omega
      have hofnat : Int.ofNat i.toNat = i := by
        simp only [Int.ofNat_eq_coe]
        omega
      set x := { mget A i.toNat with Good := true } with hx
      set A1 := A.set i.toNat x with hA1
      have hA1len : A1.length = A.length := by rw [hA1, List.length_set]
      have hA1g : ∀ k, k < A.length → mget A1 k =
          if i.toNat = k then x else mget A k := by
        intro k hk
        rw [hA1, mget_set]
        split
        · rename_i hc
          rw [if_pos hc.1]
        · rename_i hc
          rw [if_neg (by intro hc2; exact hc ⟨hc2, hitn⟩)]
      have hA1from : ∀ k, k < A.length → (mget A1 k).Simple_From = (mget A k).Simple_From := by
        intro k hk
        rw [hA1g k hk]
        split
        · rename_i hc
          subst hc
          rfl
        · rfl
      have hFromI : (mget A i.toNat).Simple_From < i := by
        have := hFrom i.toNat hitn
        simp only [Int.ofNat_eq_coe] at this
        omega
      have ih2 := ih A1 (mget A i.toNat).Simple_From (t + (mget A i.toNat).Len)
        (max h ((mget A i.toNat).Start1 + (mget A i.toNat).Len))
        (min l (mget A i.toNat).Start1)
        ?_ ?_ ?_ ?_
      · rw [ih2]
        have hcongr : chainList A1 f (mget A i.toNat).Simple_From =
            chainList A f (mget A i.toNat).Simple_From := by
          apply chainList_congr i.toNat _ _ A1 A
          · intro k hk
            rw [hA1g k (lt_trans hk hitn), if_neg (by omega)]
          · intro k hk
            exact hFrom k (lt_trans hk hitn)
          · omega
        have hfilt : A1.filter (fun m => m.Good) = x :: A.filter (fun m => m.Good) := by
          apply filter_set_true A i.toNat x hitn ?_ rfl
          intro k hk hklen
          exact hGood k hklen (by omega)
        rw [hcongr, hfilt]
        simp
      · intro k hk
        rw [hA1from k (by rwa [hA1len] at hk), hA1len] at *
        exact hFrom k (by rwa [hA1len] at hk)
      · intro k hk hki
        rw [hA1len] at hk
        rw [hA1g k hk, if_neg (by omega)]
        exact hGood k hk (by omega)
      · rw [hA1len]
        omega
      · omega

theorem onePass_chain_chain' (cfg : Config) (label : String) (A : List Match_t)
    (hG : ∀ m ∈ A, m.Good = false) :
    List.Chain' chainR ((onePass cfg label A).chain) := by
  by_cases hA : A = []
  · subst hA
    have : (onePass cfg label []).chain = [] := by
      rw [onePass_chain_eq]
      rfl
    rw [this]
    exact List.chain'_nil
  · rw [onePass_chain_eq]
    have hDP := dp_DPInv A
    have hlen1 : (dp A).length = A.length := dp_length A
    have hdpne : dp A ≠ [] := by
      intro hnil
      apply hA
      apply List.length_eq_zero.mp
      rw [← hlen1, hnil]
      rfl
    have hb : bestIdx (dp A) < (dp A).length := bestIdx_lt _ hdpne
    have hgood := dp_good_false A hG
    rw [markWalk_filter (dp A).length (dp A) (Int.ofNat (bestIdx (dp A))) 0 LONG_MIN LONG_MAX
      (dp_from_lt A)
      (fun k hk _ => hgood _ (mget_mem _ k hk))
      (by simp only [Int.ofNat_eq_coe]; exact_mod_cast hb)
      (by simp only [Int.ofNat_eq_coe]; exact_mod_cast hb)]
    have hnilf : (dp A).filter (fun m => m.Good) = [] := by
      rw [List.filter_eq_nil_iff]
      intro a ha
      simp [hgood a ha]
    rw [hnilf, List.append_nil]
    exact (chainList_chain' (dp A) hDP (dp A).length (Int.ofNat (bestIdx (dp A)))
      (by simp only [Int.ofNat_eq_coe]; exact_mod_cast hb)).1

theorem Process_Cluster_aux_chains (cfg : Config) (fuel : Nat) :
    ∀ (label : String) (A : List Match_t), (∀ m ∈ A, m.Good = false) →
      ∀ c ∈ (Process_Cluster_aux cfg fuel label A).2.2, List.Chain' chainR c := by
  induction fuel with
  | zero => intro label A _ c hc; simp [Process_Cluster_aux] at hc
  | succ f ih =>
    intro label A hG c hc
    rw [Process_Cluster_aux] at hc
    by_cases hA : A.length = 0
    · rw [if_pos hA] at hc
      simp at hc
    · rw [if_neg hA] at hc
      dsimp only at hc
      rcases List.mem_cons.mp hc with hc | hc
      · subst hc
        exact onePass_chain_chain' cfg label A hG
      · refine ih _ ((onePass cfg label A).rest) ?_ c hc
        intro m hm
        rw [onePass_rest_eq] at hm
        have := (List.mem_filter.mp hm).2
        simpa using this

/-! ## Claim C5: consecutive emitted anchors never overlap after adjustment -/

/-- C5, confirmed (in the stronger form that covers every extracted chain,
hence in particular every emitted one): in every chain produced by
`Process_Cluster` on a cluster whose `Good` flags are clear (as they are
after the filter and after each compaction), each consecutive pair
satisfies `adjusted_start_ref` of the later anchor ≥ `adjusted_start_ref +
adjusted_length` of the earlier, and likewise on the query axis.  (For the
first anchor of a chain the DP leaves `Simple_Adj = 0`, so its adjusted and
raw coordinates agree.) -/
theorem claim_C5 (cfg : Config) (label : String) (A : List Match_t)
    (hG : ∀ m ∈ A, m.Good = false) :
    ∀ c ∈ (Process_Cluster cfg label A).2.2,
      List.Chain'
        (fun p q =>
          p.Start1 + p.Simple_Adj + (p.Len - p.Simple_Adj) ≤ q.Start1 + q.Simple_Adj ∧
          p.Start2 + p.Simple_Adj + (p.Len - p.Simple_Adj) ≤ q.Start2 + q.Simple_Adj) c := by
  intro c hc
  have hch := Process_Cluster_aux_chains cfg A.length label A hG c hc
  refine hch.imp (fun a b hab => ?_)
  obtain ⟨h1, h2⟩ := hab
  constructor <;> omega

/-- Witness for C5 at a concrete two-anchor cluster whose chain is emitted
(score 300 ≥ 200). -/
theorem claim_C5_witness :
    List.Chain'
      (fun p q =>
        p.Start1 + p.Simple_Adj + (p.Len - p.Simple_Adj) ≤ q.Start1 + q.Simple_Adj ∧
        p.Start2 + p.Simple_Adj + (p.Len - p.Simple_Adj) ≤ q.Start2 + q.Simple_Adj)
      ((Process_Cluster defaultConfig "w" [mkMatch 0 0 150, mkMatch 200 200 150]).2.2.getD 0 []) :=
  claim_C5 defaultConfig "w" [mkMatch 0 0 150, mkMatch 200 200 150] (by decide) _ (by decide)

/-! ## Step lemmas for the Match Filter scan (towards claim C7) -/

theorem Filter_innerBody_stepOK (A : List Match_t) (i j : Nat) (hij : i ≠ j) :
    stepOK i A (Filter_innerBody A i j).1 := by
  refine ⟨Filter_innerBody_length A i j, ?_, ?_, ?_, ?_⟩
  · intro k
    simp only [Filter_innerBody]
    repeat' split
    all_goals try simp_all [mget_set, List.length_set]
    all_goals (split_ifs <;> simp_all)
  · intro k
    simp only [Filter_innerBody]
    repeat' split
    all_goals try simp_all [mget_set, List.length_set]
    all_goals (split_ifs <;> simp_all)
  · intro k hk
    simp only [Filter_innerBody]
    repeat' split
    all_goals try simp_all [mget_set, List.length_set]
    all_goals (split_ifs <;> simp_all)
  · intro k
    simp only [Filter_innerBody]
    repeat' split
    all_goals intro hgood
    all_goals try simp_all [mget_set, List.length_set]
    all_goals (split_ifs at hgood ⊢ <;> simp_all)

theorem Filter_innerBody_break_good (A : List Match_t) (i j : Nat) (hij : i ≠ j)
    (hi : i < A.length) (h : (Filter_innerBody A i j).2 = true) :
    (mget (Filter_innerBody A i j).1 i).Good = false := by
  revert h
  simp only [Filter_innerBody]
  repeat' split
  all_goals intro h
  all_goals try simp_all [mget_set, List.length_set]
  all_goals (split_ifs <;> simp_all)

theorem Filter_innerBody_diag_drop (A : List Match_t) (i j : Nat) (hij : i ≠ j)
    (hj : j < A.length) (hdiag : diag (mget A j) = diag (mget A i)) :
    (mget (Filter_innerBody A i j).1 j).Good = false := by
  have hdiag' : (mget A i).Start2 - (mget A i).Start1 = (mget A j).Start2 - (mget A j).Start1 := by
    have := hdiag
    simp only [diag] at this
    omega
  simp only [Filter_innerBody]
  repeat' split
  all_goals try simp_all [mget_set, List.length_set]
  all_goals (split_ifs <;> simp_all)

theorem stepOK_refl (i : Nat) (A : List Match_t) : stepOK i A A :=
  ⟨rfl, fun _ => rfl, fun _ => rfl, fun _ _ => rfl, fun _ h => h⟩

theorem stepOK_trans (i : Nat) (A B C : List Match_t)
    (h1 : stepOK i A B) (h2 : stepOK i B C) : stepOK i A C := by
  obtain ⟨l1, s1, t1, n1, g1⟩ := h1
  obtain ⟨l2, s2, t2, n2, g2⟩ := h2
  exact ⟨l2.trans l1, fun k => (s2 k).trans (s1 k), fun k => (t2 k).trans (t1 k),
    fun k hk => (n2 k hk).trans (n1 k hk), fun k hk => g1 k (g2 k hk)⟩

theorem stepOK_sorted (i : Nat) (A A' : List Match_t) (h : stepOK i A A')
    (hs : Start2Sorted A) : Start2Sorted A' := by
  intro p q hpq hq
  rw [h.2.2.1 p, h.2.2.1 q]
  exact hs p q hpq (by rwa [h.1] at hq)

theorem stepOK_InnerDone (i p : Nat) (A A' : List Match_t) (h : stepOK i A A')
    (hp : p ≠ i) (hd : InnerDone A p) : InnerDone A' p := by
  obtain ⟨hl, hs1, hs2, hlen, hgood⟩ := h
  intro hgp q hq1 hq2 hq3 hq4
  have hgpA : (mget A p).Good = true := hgood p hgp
  have hq2A : q < A.length := by rwa [hl] at hq2
  have hq3A : diag (mget A q) = diag (mget A p) := by
    simp only [diag] at hq3 ⊢
    rw [hs1 q, hs2 q, hs1 p, hs2 p] at hq3
    exact hq3
  have hq4A : (mget A q).Start2 ≤ (mget A p).Start2 + (mget A p).Len := by
    rw [hs2 q, hs2 p, hlen p hp] at hq4
    exact hq4
  have := hd hgpA q hq1 hq2A hq3A hq4A
  by_contra hc
  rw [Bool.not_eq_false] at hc
  rw [hgood q hc] at this
  simp at this

theorem innerLoop_establishes (i : Nat) :
    ∀ (fuel j : Nat) (A : List Match_t),
      i < j →
      A.length ≤ j + fuel →
      Start2Sorted A →
      (∀ q, i < q → q < j → diag (mget A q) = diag (mget A i) → (mget A q).Good = false) →
      stepOK i A (Filter_innerLoop A i fuel j) ∧ InnerDone (Filter_innerLoop A i fuel j) i := by
  intro fuel
  induction fuel with
  | zero =>
    intro j A hij hlen hsort hdone
    simp only [Filter_innerLoop]
    refine ⟨stepOK_refl i A, ?_⟩
    intro hgood q hq1 hq2 hq3 _
    exact hdone q hq1 (by omega) hq3
  | succ f ih =>
    intro j A hij hlen hsort hdone
    rw [Filter_innerLoop]
    split
    · rename_i hcond
      obtain ⟨hjlen, hjin⟩ := hcond
      have hijne : i ≠ j := by omega
      have hbody := Filter_innerBody_stepOK A i j hijne
      by_cases hbrk : (Filter_innerBody A i j).2 = true
      · rw [if_pos hbrk]
        refine ⟨hbody, ?_⟩
        intro hgood
        have hilen : i < A.length := by omega
        have := Filter_innerBody_break_good A i j hijne hilen hbrk
        rw [hgood] at this
        simp at this
      · rw [if_neg hbrk]
        obtain ⟨hl, hs1, hs2, hlenk, hgmono⟩ := hbody
        have hih := ih (j + 1) (Filter_innerBody A i j).1 (by omega) (by omega)
          (stepOK_sorted i A _ ⟨hl, hs1, hs2, hlenk, hgmono⟩ hsort) ?_
        · exact ⟨stepOK_trans i A _ _ ⟨hl, hs1, hs2, hlenk, hgmono⟩ hih.1, hih.2⟩
        · intro q hq1 hq2 hq3
          have hdiagq : diag (mget A q) = diag (mget A i) := by
            simp only [diag] at hq3 ⊢
            rw [hs1 q, hs2 q, hs1 i, hs2 i] at hq3
            exact hq3
          by_cases hqj : q < j
          · have := hdone q hq1 hqj hdiagq
            by_contra hc
            rw [Bool.not_eq_false] at hc
            rw [hgmono q hc] at this
            simp at this
          · have hqeq : q = j := by omega
            subst hqeq
            exact Filter_innerBody_diag_drop A i q hijne hjlen hdiagq
    · rename_i hcond
      rw [Decidable.not_and_iff_or_not] at hcond
      refine ⟨stepOK_refl i A, ?_⟩
      intro hgood q hq1 hq2 hq3 hq4
      by_cases hqj : q < j
      · exact hdone q hq1 hqj hq3
      · exfalso
        rcases hcond with hc | hc
        · omega
        · rw [not_le] at hc
          have hsrt : (mget A j).Start2 ≤ (mget A q).Start2 := hsort j q (by omega) hq2
          omega

theorem outerLoop_establishes :
    ∀ (fuel i : Nat) (A : List Match_t),
      A.length ≤ i + 1 + fuel →
      Start2Sorted A →
      (∀ p, p < i → InnerDone A p) →
      ∀ p, InnerDone (Filter_outerLoop A fuel i) p := by
  intro fuel
  induction fuel with
  | zero =>
    intro i A hlen hsort hinv p
    simp only [Filter_outerLoop]
    by_cases hp : p < i
    · exact hinv p hp
    · intro _ q hq1 hq2 _ _
      exfalso
      omega
  | succ f ih =>
    intro i A hlen hsort hinv
    rw [Filter_outerLoop]
    split
    · rename_i hcond
      by_cases hgi : (mget A i).Good = true
      · rw [if_pos hgi]
        have hspec := innerLoop_establishes i (A.length - (i + 1)) (i + 1) A
          (by omega) (by omega) hsort (by intro q hq1 hq2; omega)
        obtain ⟨hstep, hdone⟩ := hspec
        apply ih (i + 1) _ ?_ (stepOK_sorted i A _ hstep hsort) ?_
        · rw [hstep.1]
          omega
        · intro p hp
          by_cases hpi : p < i
          · exact stepOK_InnerDone i p A _ hstep (by omega) (hinv p hpi)
          · have : p = i := by omega
            subst this
            exact hdone
      · rw [if_neg hgi]
        apply ih (i + 1) A (by omega) hsort
        intro p hp
        by_cases hpi : p < i
        · exact hinv p hpi
        · have : p = i := by omega
          subst this
          intro hgood
          rw [Bool.not_eq_true] at hgi
          rw [hgood] at hgi
          simp at hgi
    · rename_i hcond
      intro p
      by_cases hp : p < i
      · exact hinv p hp
      · intro _ q hq1 hq2 _ _
        exfalso
        omega

theorem filter_index (pr : Match_t → Bool) :
    ∀ (L : List Match_t) (q : Nat), q < (L.filter pr).length →
      ∃ q', q' < L.length ∧ mget (L.filter pr) q = mget L q' ∧ pr (mget L q') = true := by
  intro L
  induction L with
  | nil => intro q hq; simp at hq
  | cons a tl ih =>
    intro q hq
    by_cases hpa : pr a = true
    · rw [List.filter_cons_of_pos hpa] at hq ⊢
      cases q with
      | zero => exact ⟨0, by simp, rfl, by rwa [mget_cons_zero]⟩
      | succ q =>
        obtain ⟨q', hq1, hq2, hq3⟩ := ih q (by simpa using hq)
        exact ⟨q' + 1, by simpa using Nat.succ_lt_succ hq1,
          by rwa [mget_cons_succ, mget_cons_succ], by rwa [mget_cons_succ]⟩
    · rw [List.filter_cons_of_neg (by simpa using hpa)] at hq ⊢
      obtain ⟨q', hq1, hq2, hq3⟩ := ih q hq
      exact ⟨q' + 1, by simpa using Nat.succ_lt_succ hq1,
        by rwa [mget_cons_succ], by rwa [mget_cons_succ]⟩

theorem filter_pair_index (pr : Match_t → Bool) :
    ∀ (L : List Match_t) (p q : Nat), p < q → q < (L.filter pr).length →
      ∃ p' q', p' < q' ∧ q' < L.length ∧
        mget (L.filter pr) p = mget L p' ∧ mget (L.filter pr) q = mget L q' ∧
        pr (mget L p') = true ∧ pr (mget L q') = true := by
  intro L
  induction L with
  | nil => intro p q _ hq; simp at hq
  | cons a tl ih =>
    intro p q hpq hq
    by_cases hpa : pr a = true
    · rw [List.filter_cons_of_pos hpa] at hq ⊢
      cases p with
      | zero =>
        obtain ⟨q1, hq1⟩ : ∃ q1, q = q1 + 1 := ⟨q - 1, by omega⟩
        subst hq1
        obtain ⟨q', hq'1, hq'2, hq'3⟩ := filter_index pr tl q1 (by simpa using hq)
        exact ⟨0, q' + 1, by omega, by simpa using Nat.succ_lt_succ hq'1,
          rfl, by rwa [mget_cons_succ, mget_cons_succ],
          by rwa [mget_cons_zero], by rwa [mget_cons_succ]⟩
      | succ p =>
        obtain ⟨q1, hq1⟩ : ∃ q1, q = q1 + 1 := ⟨q - 1, by omega⟩
        subst hq1
        obtain ⟨p', q', h1, h2, h3, h4, h5, h6⟩ := ih p q1 (by omega) (by simpa using hq)
        exact ⟨p' + 1, q' + 1, by omega, by simpa using Nat.succ_lt_succ h2,
          by rwa [mget_cons_succ, mget_cons_succ], by rwa [mget_cons_succ, mget_cons_succ],
          by rwa [mget_cons_succ], by rwa [mget_cons_succ]⟩
    · rw [List.filter_cons_of_neg (by simpa using hpa)] at hq ⊢
      obtain ⟨p', q', h1, h2, h3, h4, h5, h6⟩ := ih p q hpq hq
      exact ⟨p' + 1, q' + 1, by omega, by simpa using Nat.succ_lt_succ h2,
        by rwa [mget_cons_succ], by rwa [mget_cons_succ],
        by rwa [mget_cons_succ], by rwa [mget_cons_succ]⟩

theorem mget_map_clear (L : List Match_t) (k : Nat) (h : k < L.length) :
    mget (L.map fun m => { m with Good := false }) k = { mget L k with Good := false } := by
  rw [mget_eq_getElem _ _ (by simpa using h), mget_eq_getElem _ _ h]
  simp

theorem mget_map_mark (L : List Match_t) (k : Nat) (h : k < L.length) :
    mget (L.map fun m => { m with Good := true }) k = { mget L k with Good := true } := by
  rw [mget_eq_getElem _ _ (by simpa using h), mget_eq_getElem _ _ h]
  simp

/-! ## Claim C7: kept anchors on one diagonal have disjoint query ranges -/

/-- C7, confirmed (in the strict form the scan actually guarantees): after
`Filter_Matches` on a `Start2`-sorted anchor sequence, whenever two distinct
surviving anchors share a diagonal, the later one's query start is at least
the earlier one's query end — their query ranges `[Start2, Start2 + Len)`
do not overlap. -/
theorem claim_C7 (A : List Match_t) (hs : sortedByStart2 A) :
    ∀ p q, p < q → q < (Filter_Matches A).length →
      diag (mget (Filter_Matches A) q) = diag (mget (Filter_Matches A) p) →
      (mget (Filter_Matches A) p).Start2 + (mget (Filter_Matches A) p).Len ≤
        (mget (Filter_Matches A) q).Start2 := by
  intro p q hpq hq hdiag
  have hsort0 : Start2Sorted (A.map fun m => { m with Good := true }) := by
    intro a b hab hb
    rw [List.length_map] at hb
    rcases Nat.eq_or_lt_of_le hab with heq | hlt
    · subst heq; exact le_refl _
    · rw [mget_map_mark A a (by omega), mget_map_mark A b hb]
      have hpair := List.pairwise_iff_getElem.mp hs a b (by omega) hb hlt
      rw [mget_eq_getElem A a (by omega), mget_eq_getElem A b hb]
      exact hpair
  have hfin : ∀ r, InnerDone
      (Filter_outerLoop (A.map fun m => { m with Good := true })
        (A.map fun m => { m with Good := true }).length 0) r := by
    apply outerLoop_establishes _ 0 _ (by omega) hsort0
    intro r hr
    omega
  set A1 := Filter_outerLoop (A.map fun m => { m with Good := true })
    (A.map fun m => { m with Good := true }).length 0 with hA1
  have hout : Filter_Matches A = (A1.filter fun m => m.Good).map fun m => { m with Good := false } := by
    rw [Filter_Matches]
  rw [hout] at hq hdiag ⊢
  rw [List.length_map] at hq
  obtain ⟨p', q', h1, h2, h3, h4, h5, h6⟩ :=
    filter_pair_index (fun m => m.Good) A1 p q hpq hq
  have hmp : mget ((A1.filter fun m => m.Good).map fun m => { m with Good := false }) p =
      { mget (A1.filter fun m => m.Good) p with Good := false } :=
    mget_map_clear _ p (by omega)
  have hmq : mget ((A1.filter fun m => m.Good).map fun m => { m with Good := false }) q =
      { mget (A1.filter fun m => m.Good) q with Good := false } :=
    mget_map_clear _ q hq
  rw [hmp, hmq, h3, h4] at hdiag ⊢
  have hdiag1 : diag (mget A1 q') = diag (mget A1 p') := by
    simp only [diag] at hdiag ⊢
    exact hdiag
  show (mget A1 p').Start2 + (mget A1 p').Len ≤ (mget A1 q').Start2
  by_contra hcon
  have hprem : (mget A1 q').Start2 ≤ (mget A1 p').Start2 + (mget A1 p').Len := by omega
  have := hfin p' h5 q' h1 h2 hdiag1 hprem
  rw [h6] at this
  simp at this

/-- Witness for C7 at a concrete sorted input: two same-diagonal
overlapping anchors are merged, and the survivors' ranges are disjoint. -/
theorem claim_C7_witness :
    List.Pairwise (fun x y : Match_t => x.Start2 ≤ y.Start2)
        [mkMatch 0 0 10, mkMatch 5 5 10, mkMatch 20 20 10] ∧
    diag (mget (Filter_Matches [mkMatch 0 0 10, mkMatch 5 5 10, mkMatch 20 20 10]) 1) =
      diag (mget (Filter_Matches [mkMatch 0 0 10, mkMatch 5 5 10, mkMatch 20 20 10]) 0) ∧
    (mget (Filter_Matches [mkMatch 0 0 10, mkMatch 5 5 10, mkMatch 20 20 10]) 0).Start2 +
        (mget (Filter_Matches [mkMatch 0 0 10, mkMatch 5 5 10, mkMatch 20 20 10]) 0).Len ≤
      (mget (Filter_Matches [mkMatch 0 0 10, mkMatch 5 5 10, mkMatch 20 20 10]) 1).Start2 :=
  ⟨by decide, by decide,
    claim_C7 [mkMatch 0 0 10, mkMatch 5 5 10, mkMatch 20 20 10]
      (by simp only [sortedByStart2]; decide) 0 1
      (by decide) (by decide) (by decide)⟩

/-! ## Union-find verification (towards claims C6 and C10) -/

theorem ufget_set (uf : List Int) (n k : Nat) (v : Int) :
    (uf.set n v).getD k 0 = if n = k ∧ n < uf.length then v else uf.getD k 0 := by
  simp only [List.getD_eq_getElem?_getD, List.getElem?_set]
  by_cases h1 : n = k
  · subst h1
    by_cases h2 : n < uf.length
    · simp [h2]
    · simp [h2, List.getElem?_eq_none (by omega : uf.length ≤ n)]
  · simp [h1]

theorem reaches_root_neg {N : Nat} {uf : List Int} {d i r : Nat}
    (h : ReachesN N uf d i r) : uf.getD r 0 < 0 := by
  induction h with
  | root _ h0 => exact h0
  | step _ _ _ _ _ _ ih => exact ih

theorem reaches_det {N : Nat} {uf : List Int} {d i r : Nat}
    (h : ReachesN N uf d i r) :
    ∀ {e r'}, ReachesN N uf e i r' → r = r' := by
  induction h with
  | root i h0 =>
    intro e r' h'
    cases h' with
    | root => rfl
    | step _ _ _ hpos _ _ => omega
  | step d i r hpos hbnd hch ih =>
    intro e r' h'
    cases h' with
    | root _ h0 => omega
    | step _ _ _ _ _ hch' => exact ih hch'

theorem reaches_range {N : Nat} {uf : List Int} {d i r : Nat}
    (h : ReachesN N uf d i r) (hi1 : 1 ≤ i) (hi2 : i ≤ N) : 1 ≤ r ∧ r ≤ N := by
  induction h with
  | root => exact ⟨hi1, hi2⟩
  | step d i r hpos hbnd hch ih => exact ih (by omega) hbnd

theorem reaches_step_pos {N : Nat} {uf : List Int} {d i r : Nat}
    (h : ReachesN N uf d i r) (hne : i ≠ r) :
    0 < uf.getD i 0 ∧ 1 ≤ d ∧
      ReachesN N uf (d - 1) (uf.getD i 0).toNat r ∧ (uf.getD i 0).toNat ≤ N := by
  cases h with
  | root => exact absurd rfl hne
  | step d i r hpos hbnd hch => exact ⟨hpos, by omega, by simpa using hch, hbnd⟩

theorem reaches_zero_eq {N : Nat} {uf : List Int} {i r : Nat}
    (h : ReachesN N uf 0 i r) : i = r := by
  cases h with
  | root => rfl

theorem chain_root_inv {N : Nat} {uf : List Int} {d i r : Nat}
    (h : ReachesN N uf d i r) (hroot : uf.getD i 0 < 0) : r = i := by
  cases h with
  | root => rfl
  | step _ _ _ hpos => omega

theorem walkRoot_eq {N : Nat} {uf : List Int} :
    ∀ {d i r : Nat}, ReachesN N uf d i r → ∀ fuel, d ≤ fuel → walkRoot uf fuel i = r := by
  intro d
  induction d with
  | zero =>
    intro i r h fuel _
    have := reaches_zero_eq h
    subst this
    have hroot := reaches_root_neg h
    cases fuel with
    | zero => rfl
    | succ f =>
      rw [walkRoot]
      simp only [if_neg (by omega : ¬ 0 < uf.getD i 0)]
  | succ d ih =>
    intro i r h fuel hfuel
    have hne : i ≠ r := by
      intro he
      subst he
      have hneg := reaches_root_neg h
      cases h with
      | step _ _ _ hpos _ _ => omega
    obtain ⟨hpos, -, hch, -⟩ := reaches_step_pos h hne
    cases fuel with
    | zero => omega
    | succ f =>
      rw [walkRoot]
      simp only [if_pos hpos]
      exact ih (by simpa using hch) f (by omega)

theorem reaches_set_root_forward {N : Nat} {uf : List Int} {dj j r : Nat}
    (hch : ReachesN N uf dj j r) (hjr : j ≠ r) (hr1 : 1 ≤ r) (hrN : r ≤ N)
    (hjlen : j < uf.length) :
    ∀ {e x rx}, ReachesN N uf e x rx →
      ∃ e', e' ≤ e ∧ ReachesN N (uf.set j (r : Int)) e' x rx := by
  intro e
  induction e using Nat.strong_induction_on with
  | _ e ih =>
    intro x rx h
    cases h with
    | root _ h0 =>
      have hxj : x ≠ j := by
        intro hx
        subst hx
        obtain ⟨hpos, -, -, -⟩ := reaches_step_pos hch hjr
        omega
      refine ⟨0, Nat.zero_le _, ReachesN.root x ?_⟩
      rw [ufget_set, if_neg (by intro hc; exact hxj hc.1.symm)]
      exact h0
    | step d _ _ hpos hbnd htail =>
      by_cases hxj : x = j
      · subst hxj
        have h1 : ReachesN N uf (d + 1) x rx := ReachesN.step d x rx hpos hbnd htail
        have hrxr : rx = r := reaches_det h1 hch
        subst hrxr
        refine ⟨1, by omega, ?_⟩
        have hset : (uf.set x (rx : Int)).getD x 0 = (rx : Int) := by
          rw [ufget_set, if_pos ⟨rfl, hjlen⟩]
        refine ReachesN.step 0 x rx (by rw [hset]; exact_mod_cast hr1)
          (by rw [hset]; simpa) ?_
        have htn : ((uf.set x (rx : Int)).getD x 0).toNat = rx := by rw [hset]; simp
        rw [htn]
        refine ReachesN.root rx ?_
        rw [ufget_set, if_neg (by intro hc; exact hjr hc.1)]
        exact reaches_root_neg hch
      · obtain ⟨e', he', hre⟩ := ih d (by omega) htail
        refine ⟨e' + 1, by omega, ?_⟩
        have hset : (uf.set j (r : Int)).getD x 0 = uf.getD x 0 := by
          rw [ufget_set, if_neg (by intro hc; exact hxj hc.1.symm)]
        refine ReachesN.step e' x rx (by rw [hset]; exact hpos) (by rw [hset]; exact hbnd) ?_
        rw [hset]
        exact hre

theorem reaches_set_root_reverse {N : Nat} {uf : List Int} {dj j r : Nat}
    (hch : ReachesN N uf dj j r) (hjr : j ≠ r) (hr1 : 1 ≤ r) (hrN : r ≤ N)
    (hjlen : j < uf.length) :
    ∀ {e x}, ReachesN N (uf.set j (r : Int)) e x r →
      ∃ e'', ReachesN N uf e'' x r := by
  intro e
  induction e using Nat.strong_induction_on with
  | _ e ih =>
    intro x h
    cases h with
    | root _ h0 =>
      refine ⟨0, ReachesN.root r ?_⟩
      rw [ufget_set, if_neg (by intro hc; exact hjr hc.1)] at h0
      exact h0
    | step d _ _ hpos hbnd htail =>
      by_cases hxj : x = j
      · subst hxj
        exact ⟨dj, hch⟩
      · have hset : (uf.set j (r : Int)).getD x 0 = uf.getD x 0 := by
          rw [ufget_set, if_neg (by intro hc; exact hxj hc.1.symm)]
        rw [hset] at hpos hbnd htail
        obtain ⟨e'', hre⟩ := ih d (by omega) htail
        exact ⟨e'' + 1, ReachesN.step e'' x r hpos hbnd hre⟩

theorem compressPath_spec {N r : Nat} (hr1 : 1 ≤ r) (hrN : r ≤ N) :
    ∀ (fuel : Nat) (uf : List Int) (j d : Nat),
      ReachesN N uf d j r → j ≠ r → N + 1 ≤ uf.length → j ≤ N → d ≤ fuel →
      UFPres N uf (compressPath uf fuel j r) r := by
  intro fuel
  induction fuel with
  | zero =>
    intro uf j d hch hjr hlen hjN hd
    have : d = 0 := by omega
    subst this
    exact absurd (reaches_zero_eq hch) hjr
  | succ f ih =>
    intro uf j d hch hjr hlen hjN hd
    obtain ⟨hpos, hd1, htail, hpN⟩ := reaches_step_pos hch hjr
    rw [compressPath]
    by_cases hvr : uf.getD j 0 = (r : Int)
    · rw [if_pos hvr]
      exact ⟨rfl, fun y => Or.inl rfl⟩
    · rw [if_neg hvr]
      have hjlen : j < uf.length := by omega
      have hpne : (uf.getD j 0).toNat ≠ r := by
        intro hpe
        apply hvr
        omega
      obtain ⟨e', he', hre⟩ := reaches_set_root_forward hch hjr hr1 hrN hjlen htail
      have hih := ih (uf.set j (r : Int)) (uf.getD j 0).toNat e' hre hpne
        (by rw [List.length_set]; exact hlen) hpN (by omega)
      obtain ⟨hlen2, hdisj⟩ := hih
      refine ⟨by rw [hlen2, List.length_set], ?_⟩
      intro y
      rcases hdisj y with h1 | ⟨hp1, hp2, hp3, e2, hp4⟩
      · by_cases hyj : y = j
        · subst hyj
          right
          rw [h1, ufget_set, if_pos ⟨rfl, hjlen⟩]
          exact ⟨hpos, rfl, hjr, d, hch⟩
        · left
          rw [h1, ufget_set, if_neg (by intro hc; exact hyj hc.1.symm)]
      · by_cases hyj : y = j
        · subst hyj
          right
          exact ⟨hpos, hp2, hjr, d, hch⟩
        · right
          have hset : (uf.set j (r : Int)).getD y 0 = uf.getD y 0 := by
            rw [ufget_set, if_neg (by intro hc; exact hyj hc.1.symm)]
          rw [hset] at hp1
          obtain ⟨e3, hch3⟩ := reaches_set_root_reverse hch hjr hr1 hrN hjlen hp4
          exact ⟨hp1, hp2, hp3, e3, hch3⟩

theorem pres_reaches {N r : Nat} {uf uf' : List Int}
    (hpres : UFPres N uf uf' r) (hr1 : 1 ≤ r) (hrN : r ≤ N)
    (hroot : uf.getD r 0 < 0) :
    ∀ {e x rx}, ReachesN N uf e x rx → ∃ e', e' ≤ e ∧ ReachesN N uf' e' x rx := by
  obtain ⟨hlen, hdisj⟩ := hpres
  intro e
  induction e using Nat.strong_induction_on with
  | _ e ih =>
    intro x rx h
    cases h with
    | root _ h0 =>
      rcases hdisj x with h1 | ⟨hp1, -, -, -⟩
      · exact ⟨0, Nat.zero_le _, ReachesN.root x (by rw [h1]; exact h0)⟩
      · omega
    | step d _ _ hpos hbnd htail =>
      rcases hdisj x with h1 | ⟨hp1, hp2, hp3, e2, hp4⟩
      · obtain ⟨e', he', hre⟩ := ih d (by omega) htail
        refine ⟨e' + 1, by omega, ?_⟩
        exact ReachesN.step e' x rx (by rw [h1]; exact hpos) (by rw [h1]; exact hbnd)
          (by rw [h1]; exact hre)
      · have hrxr : rx = r := by
          have h1 : ReachesN N uf (d + 1) x rx := ReachesN.step d x rx hpos hbnd htail
          exact reaches_det h1 hp4
        subst hrxr
        refine ⟨1, by omega, ?_⟩
        refine ReachesN.step 0 x rx (by rw [hp2]; exact_mod_cast hr1)
          (by rw [hp2]; simpa) ?_
        have htn : (uf'.getD x 0).toNat = rx := by rw [hp2]; simp
        rw [htn]
        refine ReachesN.root rx ?_
        rcases hdisj rx with h1 | ⟨-, -, hne, -⟩
        · rw [h1]; exact hroot
        · exact absurd rfl hne

theorem pres_IsRepr {N r : Nat} {uf uf' : List Int} {rf : Nat → Nat}
    (hpres : UFPres N uf uf' r) (hr1 : 1 ≤ r) (hrN : r ≤ N)
    (hroot : uf.getD r 0 < 0) (hIs : IsRepr uf N rf) : IsRepr uf' N rf := by
  obtain ⟨hlen, hinv⟩ := hIs
  refine ⟨by rw [hpres.1]; exact hlen, ?_⟩
  intro i hi1 hi2
  obtain ⟨hrange, hrootv, d, hch, hcard⟩ := hinv i hi1 hi2
  refine ⟨hrange, ?_, ?_⟩
  · rcases hpres.2 (rf i) with h1 | ⟨hp1, -, -, -⟩
    · rw [h1]; exact hrootv
    · omega
  · obtain ⟨e', he', hre⟩ := pres_reaches hpres hr1 hrN hroot hch
    exact ⟨e', hre, by omega⟩

theorem classCard_le (N : Nat) (rf : Nat → Nat) (r : Nat) : classCard N rf r ≤ N := by
  unfold classCard
  calc ((List.range' 1 N).filter fun j => rf j == r).length
      ≤ (List.range' 1 N).length := List.length_filter_le _ _
    _ = N := by simp

theorem UF_find_spec {N : Nat} {uf : List Int} {rf : Nat → Nat}
    (hIs : IsRepr uf N rf) (a : Nat) (ha1 : 1 ≤ a) (haN : a ≤ N) :
    (UF_find uf a).2 = rf a ∧ IsRepr (UF_find uf a).1 N rf := by
  obtain ⟨hlen, hinv⟩ := hIs
  obtain ⟨⟨hr1, hrN⟩, hrootv, d, hch, hcard⟩ := hinv a ha1 haN
  rw [UF_find]
  by_cases hneg : uf.getD a 0 < 0
  · rw [if_pos hneg]
    exact ⟨(chain_root_inv hch hneg).symm, ⟨hlen, hinv⟩⟩
  · rw [if_neg hneg]
    have hane : a ≠ rf a := by
      intro he
      rw [← he] at hrootv
      omega
    have hdlen : d ≤ uf.length := by
      have := classCard_le N rf (rf a)
      omega
    have hwalk : walkRoot uf uf.length a = rf a := walkRoot_eq hch uf.length hdlen
    rw [hwalk]
    have hpres := compressPath_spec hr1 hrN uf.length uf a d hch hane hlen haN
      (by omega)
    exact ⟨rfl, pres_IsRepr hpres hr1 hrN hrootv ⟨hlen, hinv⟩⟩

theorem reaches_pos_unchanged {N : Nat} {uf uf' : List Int}
    (hag : ∀ x : Nat, 0 < uf.getD x 0 → uf'.getD x 0 = uf.getD x 0) :
    ∀ {d i rr : Nat}, uf'.getD rr 0 < 0 → ReachesN N uf d i rr → ReachesN N uf' d i rr := by
  intro d
  induction d using Nat.strong_induction_on with
  | _ d ih =>
    intro i rr hroot' h
    cases h with
    | root _ h0 => exact ReachesN.root i hroot'
    | step e _ _ hpos hbnd htail =>
      have hx := hag i hpos
      exact ReachesN.step e i rr (by rw [hx]; exact hpos) (by rw [hx]; exact hbnd)
        (by rw [hx]; exact ih e (by omega) hroot' htail)

theorem reaches_replace_root {N : Nat} {uf uf' : List Int} {a b : Nat}
    (hag : ∀ x : Nat, 0 < uf.getD x 0 → uf'.getD x 0 = uf.getD x 0)
    (hb : 0 < uf'.getD b 0) (hbv : (uf'.getD b 0).toNat = a) (haN : a ≤ N)
    (hroota : uf'.getD a 0 < 0) :
    ∀ {d i : Nat}, ReachesN N uf d i b → ReachesN N uf' (d + 1) i a := by
  intro d
  induction d using Nat.strong_induction_on with
  | _ d ih =>
    intro i h
    cases h with
    | root _ h0 =>
      refine ReachesN.step 0 b a hb (by rw [hbv]; exact haN) ?_
      rw [hbv]
      exact ReachesN.root a hroota
    | step e _ _ hpos hbnd htail =>
      have hx := hag i hpos
      exact ReachesN.step (e + 1) i a (by rw [hx]; exact hpos) (by rw [hx]; exact hbnd)
        (by rw [hx]; exact ih e (by omega) htail)

theorem filter_or_length :
    ∀ (l : List Nat) (P Q : Nat → Bool), (∀ x, ¬(P x = true ∧ Q x = true)) →
      (l.filter fun x => P x || Q x).length = (l.filter P).length + (l.filter Q).length := by
  intro l
  induction l with
  | nil => intro P Q _; rfl
  | cons a tl ih =>
    intro P Q hdisj
    have hrec := ih P Q hdisj
    by_cases hP : P a = true
    · have hQ : Q a = false := by
        by_contra hc
        rw [Bool.not_eq_false] at hc
        exact hdisj a ⟨hP, hc⟩
      rw [List.filter_cons_of_pos (by simp [hP]), List.filter_cons_of_pos hP,
          List.filter_cons_of_neg (by simp [hQ])]
      simp only [List.length_cons]
      omega
    · rw [Bool.not_eq_true] at hP
      by_cases hQ : Q a = true
      · rw [List.filter_cons_of_pos (by simp [hP, hQ]), List.filter_cons_of_neg (by simp [hP]),
            List.filter_cons_of_pos hQ]
        simp only [List.length_cons]
        omega
      · rw [Bool.not_eq_true] at hQ
        rw [List.filter_cons_of_neg (by simp [hP, hQ]), List.filter_cons_of_neg (by simp [hP]),
            List.filter_cons_of_neg (by simp [hQ])]
        exact hrec

theorem classCard_merge_w (N : Nat) (rf : Nat → Nat) (a b w : Nat)
    (hab : a ≠ b) (hw : w = a ∨ w = b) :
    classCard N (mergeRf rf a b w) w = classCard N rf a + classCard N rf b := by
  unfold classCard
  have hcongr : ∀ j ∈ List.range' 1 N,
      (mergeRf rf a b w j == w) = ((rf j == a) || (rf j == b)) := by
    intro j _
    unfold mergeRf
    by_cases h : rf j = a ∨ rf j = b
    · rw [if_pos h]
      simp only [beq_self_eq_true, Bool.true_eq]
      rcases h with h | h <;> simp [h]
    · rw [if_neg h]
      rw [not_or] at h
      have hjw : rf j ≠ w := by
        rcases hw with hw | hw <;> (subst hw; tauto)
      have e1 : (rf j == w) = false := by rw [beq_eq_false_iff_ne]; exact hjw
      have e2 : (rf j == a) = false := by rw [beq_eq_false_iff_ne]; exact h.1
      have e3 : (rf j == b) = false := by rw [beq_eq_false_iff_ne]; exact h.2
      rw [e1, e2, e3]
      rfl
  rw [List.filter_congr hcongr]
  apply filter_or_length
  intro x ⟨h1, h2⟩
  rw [beq_iff_eq] at h1 h2
  exact hab (h1 ▸ h2 ▸ rfl)

theorem classCard_merge_other (N : Nat) (rf : Nat → Nat) (a b w r : Nat)
    (hra : r ≠ a) (hrb : r ≠ b) (hw : w = a ∨ w = b) :
    classCard N (mergeRf rf a b w) r = classCard N rf r := by
  unfold classCard
  congr 1
  apply List.filter_congr
  intro j _
  unfold mergeRf
  by_cases h : rf j = a ∨ rf j = b
  · rw [if_pos h]
    have hwr : w ≠ r := by
      rcases hw with hw | hw <;> (subst hw; omega)
    have hjr : rf j ≠ r := by
      rcases h with h | h <;> (rw [h]; omega)
    have e1 : (w == r) = false := by rw [beq_eq_false_iff_ne]; exact hwr
    have e2 : (rf j == r) = false := by rw [beq_eq_false_iff_ne]; exact hjr
    rw [e1, e2]
  · rw [if_neg h]

theorem classCard_pos (N : Nat) (rf : Nat → Nat) (x : Nat)
    (hx1 : 1 ≤ x) (hxN : x ≤ N) (hrfx : rf x = x) : 1 ≤ classCard N rf x := by
  unfold classCard
  have hmem : x ∈ (List.range' 1 N).filter fun j => rf j == x := by
    rw [List.mem_filter]
    constructor
    · rw [List.mem_range'_1]
      omega
    · simp [hrfx]
  calc 1 ≤ 1 := le_refl 1
    _ ≤ ((List.range' 1 N).filter fun j => rf j == x).length :=
      List.length_pos.mpr (List.ne_nil_of_mem hmem)

theorem rf_idem {N : Nat} {uf : List Int} {rf : Nat → Nat}
    (hIs : IsRepr uf N rf) (i : Nat) (hi1 : 1 ≤ i) (hiN : i ≤ N) : rf (rf i) = rf i := by
  obtain ⟨hlen, hinv⟩ := hIs
  obtain ⟨⟨hr1, hrN⟩, hrootv, -, -, -⟩ := hinv i hi1 hiN
  obtain ⟨-, -, d, hch, -⟩ := hinv (rf i) hr1 hrN
  exact chain_root_inv hch hrootv

theorem union_half {N : Nat} {uf : List Int} {rf : Nat → Nat} (hIs : IsRepr uf N rf)
    (w lz : Nat) (hw1 : 1 ≤ w) (hwN : w ≤ N) (hwroot : uf.getD w 0 < 0)
    (hwrf : rf w = w)
    (hl1 : 1 ≤ lz) (hlN : lz ≤ N) (hlroot : uf.getD lz 0 < 0)
    (hne : w ≠ lz) (s : Int) (hs : s < 0) :
    IsRepr ((uf.set w s).set lz (w : Int)) N (mergeRf rf w lz w) := by
  obtain ⟨hlen, hinv⟩ := hIs
  have hwlen : w < uf.length := by omega
  have hllen : lz < uf.length := by omega
  have hvl : ((uf.set w s).set lz (w : Int)).getD lz 0 = (w : Int) := by
    rw [ufget_set, if_pos ⟨rfl, by rw [List.length_set]; exact hllen⟩]
  have hvw : ((uf.set w s).set lz (w : Int)).getD w 0 = s := by
    rw [ufget_set, if_neg (by intro hc; exact hne hc.1.symm), ufget_set,
      if_pos ⟨rfl, hwlen⟩]
  have hvo : ∀ y : Nat, y ≠ w → y ≠ lz →
      ((uf.set w s).set lz (w : Int)).getD y 0 = uf.getD y 0 := by
    intro y hyw hyl
    rw [ufget_set, if_neg (by intro hc; exact hyl hc.1.symm), ufget_set,
      if_neg (by intro hc; exact hyw hc.1.symm)]
  have hag : ∀ x : Nat, 0 < uf.getD x 0 →
      ((uf.set w s).set lz (w : Int)).getD x 0 = uf.getD x 0 := by
    intro x hx
    refine hvo x ?_ ?_ <;> (intro he; subst he; omega)
  refine ⟨by rw [List.length_set, List.length_set]; exact hlen, ?_⟩
  intro i hi1 hi2
  obtain ⟨⟨hr1, hrN⟩, hrootv, d, hch, hcard⟩ := hinv i hi1 hi2
  by_cases hew : rf i = w
  · have hmv : mergeRf rf w lz w i = w := by
      unfold mergeRf
      rw [if_pos (Or.inl hew)]
    rw [hmv]
    refine ⟨⟨hw1, hwN⟩, by rw [hvw]; exact hs, d, ?_, ?_⟩
    · rw [hew] at hch
      exact reaches_pos_unchanged hag (by rw [hvw]; exact hs) hch
    · have h1 : classCard N (mergeRf rf w lz w) w =
          classCard N rf w + classCard N rf lz := by
        have := classCard_merge_w N rf w lz w hne (Or.inl rfl)
        exact this
      rw [h1]
      rw [hew] at hcard
      omega
  · by_cases hel : rf i = lz
    · have hmv : mergeRf rf w lz w i = w := by
        unfold mergeRf
        rw [if_pos (Or.inr hel)]
      rw [hmv]
      refine ⟨⟨hw1, hwN⟩, by rw [hvw]; exact hs, d + 1, ?_, ?_⟩
      · rw [hel] at hch
        exact reaches_replace_root hag (by rw [hvl]; exact_mod_cast hw1)
          (by rw [hvl]; simp) hwN (by rw [hvw]; exact hs) hch
      · have h1 : classCard N (mergeRf rf w lz w) w =
            classCard N rf w + classCard N rf lz := classCard_merge_w N rf w lz w hne (Or.inl rfl)
        rw [h1]
        rw [hel] at hcard
        have hwpos : 1 ≤ classCard N rf w := classCard_pos N rf w hw1 hwN hwrf
        omega
    · have hmv : mergeRf rf w lz w i = rf i := by
        unfold mergeRf
        rw [if_neg (by tauto)]
      rw [hmv]
      refine ⟨⟨hr1, hrN⟩, ?_, d, ?_, ?_⟩
      · rw [hvo (rf i) hew hel]
        exact hrootv
      · exact reaches_pos_unchanged hag (by rw [hvo (rf i) hew hel]; exact hrootv) hch
      · rw [classCard_merge_other N rf w lz w (rf i) hew hel (Or.inl rfl)]
        exact hcard

theorem mergeRf_comm (rf : Nat → Nat) (a b w : Nat) :
    mergeRf rf b a w = mergeRf rf a b w := by
  funext x
  unfold mergeRf
  by_cases h : rf x = a ∨ rf x = b
  · rw [if_pos (Or.symm h), if_pos h]
  · rw [if_neg (fun hc => h (Or.symm hc)), if_neg h]

theorem union_sets_spec {N : Nat} {uf : List Int} {rf : Nat → Nat} (hIs : IsRepr uf N rf)
    (a b : Nat) (ha1 : 1 ≤ a) (haN : a ≤ N) (haroot : uf.getD a 0 < 0) (harf : rf a = a)
    (hb1 : 1 ≤ b) (hbN : b ≤ N) (hbroot : uf.getD b 0 < 0) (hbrf : rf b = b)
    (hab : a ≠ b) :
    ∃ w, (w = a ∨ w = b) ∧ IsRepr (union_sets uf a b) N (mergeRf rf a b w) := by
  rw [union_sets, if_neg hab]
  by_cases hv : uf.getD a 0 < uf.getD b 0
  · rw [if_pos hv]
    exact ⟨a, Or.inl rfl,
      union_half hIs a b ha1 haN haroot harf hb1 hbN hbroot hab
        (uf.getD a 0 + uf.getD b 0) (by omega)⟩
  · rw [if_neg hv]
    refine ⟨b, Or.inr rfl, ?_⟩
    rw [← mergeRf_comm]
    exact union_half hIs b a hb1 hbN hbroot hbrf ha1 haN haroot (by omega)
      (uf.getD b 0 + uf.getD a 0) (by omega)

/-! ## Equivalence-closure bookkeeping -/

theorem eqvgen_congr {α : Type} {R S : α → α → Prop} (h : ∀ x y, R x y ↔ S x y) :
    ∀ x y, Relation.EqvGen R x y ↔ Relation.EqvGen S x y := by
  intro x y
  constructor
  · exact Relation.EqvGen.mono (fun a b hab => (h a b).mp hab)
  · exact Relation.EqvGen.mono (fun a b hab => (h a b).mpr hab)

theorem eqvgen_bot {α : Type} (x y : α) :
    Relation.EqvGen (fun _ _ => False) x y ↔ x = y := by
  constructor
  · intro h
    induction h with
    | rel _ _ hr => exact absurd hr id
    | refl => rfl
    | symm _ _ _ ih => exact ih.symm
    | trans _ _ _ _ _ ih1 ih2 => exact ih1.trans ih2
  · intro h
    subst h
    exact Relation.EqvGen.refl x

theorem eqvgen_trans {α : Type} {r : α → α → Prop} {x y z : α}
    (h1 : Relation.EqvGen r x y) (h2 : Relation.EqvGen r y z) : Relation.EqvGen r x z :=
  Relation.EqvGen.trans x y z h1 h2

theorem eqvgen_symm {α : Type} {r : α → α → Prop} {x y : α}
    (h : Relation.EqvGen r x y) : Relation.EqvGen r y x :=
  Relation.EqvGen.symm x y h

theorem eqvgen_add_single {α : Type} (R : α → α → Prop) (p q : α) :
    ∀ u v, Relation.EqvGen (fun x y => R x y ∨ (x = p ∧ y = q)) u v ↔
      (Relation.EqvGen R u v ∨
        (Relation.EqvGen R u p ∧ Relation.EqvGen R q v) ∨
        (Relation.EqvGen R u q ∧ Relation.EqvGen R p v)) := by
  intro u v
  constructor
  · intro h
    induction h with
    | rel x y hr =>
      rcases hr with hr | ⟨hx, hy⟩
      · exact Or.inl (Relation.EqvGen.rel x y hr)
      · refine Or.inr (Or.inl ?_)
        rw [hx, hy]
        exact ⟨Relation.EqvGen.refl p, Relation.EqvGen.refl q⟩
    | refl x => exact Or.inl (Relation.EqvGen.refl x)
    | symm x y _ ih =>
      rcases ih with h1 | ⟨h1, h2⟩ | ⟨h1, h2⟩
      · exact Or.inl (eqvgen_symm h1)
      · exact Or.inr (Or.inr ⟨eqvgen_symm h2, eqvgen_symm h1⟩)
      · exact Or.inr (Or.inl ⟨eqvgen_symm h2, eqvgen_symm h1⟩)
    | trans x y z _ _ ih1 ih2 =>
      rcases ih1 with h1 | ⟨h1, h2⟩ | ⟨h1, h2⟩ <;>
        rcases ih2 with h3 | ⟨h3, h4⟩ | ⟨h3, h4⟩
      · exact Or.inl (eqvgen_trans h1 h3)
      · exact Or.inr (Or.inl ⟨eqvgen_trans h1 h3, h4⟩)
      · exact Or.inr (Or.inr ⟨eqvgen_trans h1 h3, h4⟩)
      · exact Or.inr (Or.inl ⟨h1, eqvgen_trans h2 h3⟩)
      · exact Or.inr (Or.inl ⟨h1, h4⟩)
      · exact Or.inl (eqvgen_trans h1 h4)
      · exact Or.inr (Or.inr ⟨h1, eqvgen_trans h2 h3⟩)
      · exact Or.inl (eqvgen_trans h1 h4)
      · exact Or.inr (Or.inr ⟨h1, h4⟩)
  · intro h
    have hmono : ∀ x y, Relation.EqvGen R x y →
        Relation.EqvGen (fun x y => R x y ∨ (x = p ∧ y = q)) x y :=
      fun x y => Relation.EqvGen.mono (fun a b hab => Or.inl hab)
    have hpq : Relation.EqvGen (fun x y => R x y ∨ (x = p ∧ y = q)) p q :=
      Relation.EqvGen.rel p q (Or.inr ⟨rfl, rfl⟩)
    rcases h with h1 | ⟨h1, h2⟩ | ⟨h1, h2⟩
    · exact hmono u v h1
    · exact eqvgen_trans (eqvgen_trans (hmono u p h1) hpq) (hmono q v h2)
    · exact eqvgen_trans (eqvgen_trans (hmono u q h1) (eqvgen_symm hpq)) (hmono p v h2)

theorem merge_iff (rf : Nat → Nat) (a b w : Nat) (hw : w = a ∨ w = b) (x y : Nat) :
    mergeRf rf a b w x = mergeRf rf a b w y ↔
      (rf x = rf y ∨ ((rf x = a ∨ rf x = b) ∧ (rf y = a ∨ rf y = b))) := by
  unfold mergeRf
  by_cases hx : rf x = a ∨ rf x = b <;> by_cases hy : rf y = a ∨ rf y = b
  · rw [if_pos hx, if_pos hy]
    simp [hx, hy]
  · rw [if_pos hx, if_neg hy]
    constructor
    · intro h
      exfalso
      apply hy
      rw [← h]
      exact hw
    · intro h
      rcases h with h | ⟨-, h2⟩
      · exfalso
        apply hy
        rw [← h]
        exact hx
      · exact absurd h2 hy
  · rw [if_neg hx, if_pos hy]
    constructor
    · intro h
      exfalso
      apply hx
      rw [h]
      exact hw
    · intro h
      rcases h with h | ⟨h1, -⟩
      · exfalso
        apply hx
        rw [h]
        exact hy
      · exact absurd h1 hx
  · rw [if_neg hx, if_neg hy]
    constructor
    · exact fun h => Or.inl h
    · intro h
      rcases h with h | ⟨h1, -⟩
      · exact h
      · exact absurd h1 hx

theorem charP_congr {N : Nat} {rf : Nat → Nat} {R S : Nat → Nat → Prop}
    (h : ∀ x y, R x y ↔ S x y) (hc : CharP N rf R) : CharP N rf S := by
  intro x y hx1 hx2 hy1 hy2
  rw [hc x y hx1 hx2 hy1 hy2]
  exact eqvgen_congr h x y

theorem charP_update {N : Nat} {rf : Nat → Nat} {R : Nat → Nat → Prop}
    (hc : CharP N rf R) (p q : Nat) (hp1 : 1 ≤ p) (hpN : p ≤ N) (hq1 : 1 ≤ q) (hqN : q ≤ N)
    (w : Nat) (hw : w = rf p ∨ w = rf q) :
    CharP N (mergeRf rf (rf p) (rf q) w) (fun x y => R x y ∨ (x = p ∧ y = q)) := by
  intro x y hx1 hx2 hy1 hy2
  rw [merge_iff rf (rf p) (rf q) w hw x y]
  rw [eqvgen_add_single R p q x y]
  have hxy := hc x y hx1 hx2 hy1 hy2
  have hxp := hc x p hx1 hx2 hp1 hpN
  have hxq := hc x q hx1 hx2 hq1 hqN
  have hyp := hc y p hy1 hy2 hp1 hpN
  have hyq := hc y q hy1 hy2 hq1 hqN
  have hqv := hc q y hq1 hqN hy1 hy2
  have hpv := hc p y hp1 hpN hy1 hy2
  constructor
  · intro h
    rcases h with h | ⟨h1, h2⟩
    · exact Or.inl (hxy.mp h)
    · rcases h1 with h1 | h1 <;> rcases h2 with h2 | h2
      · exact Or.inl (hxy.mp (h1.trans h2.symm))
      · exact Or.inr (Or.inl ⟨hxp.mp h1, hqv.mp h2.symm⟩)
      · exact Or.inr (Or.inr ⟨hxq.mp h1, hpv.mp h2.symm⟩)
      · exact Or.inl (hxy.mp (h1.trans h2.symm))
  · intro h
    rcases h with h | ⟨h1, h2⟩ | ⟨h1, h2⟩
    · exact Or.inl (hxy.mpr h)
    · refine Or.inr ⟨Or.inl (hxp.mpr h1), Or.inr ?_⟩
      exact (hqv.mpr h2).symm
    · refine Or.inr ⟨Or.inr (hxq.mpr h1), Or.inl ?_⟩
      exact (hpv.mpr h2).symm

/-! ## The clustering scan: reset state and one union step -/

theorem sorted_pointwise (A : List Match_t) (hs : sortedByStart2 A) : Start2Sorted A := by
  intro a b hab hb
  rcases Nat.eq_or_lt_of_le hab with heq | hlt
  · subst heq; exact le_refl _
  · have hpair := List.pairwise_iff_getElem.mp hs a b (by omega) hb hlt
    rw [mget_eq_getElem A a (by omega), mget_eq_getElem A b hb]
    exact hpair

theorem replicate_getD (n : Nat) (v : Int) (i : Nat) (h : i < n) :
    (List.replicate n v).getD i 0 = v := by
  rw [List.getD_eq_getElem?_getD, List.getElem?_replicate, if_pos h]
  rfl

theorem reset_IsRepr (S N : Nat) (hN : N ≤ S) : IsRepr (UF_reset S) N (fun x => x) := by
  refine ⟨by simp [UF_reset]; omega, ?_⟩
  intro i hi1 hiN
  have hroot : (UF_reset S).getD i 0 = -1 := replicate_getD (S + 1) (-1) i (by omega)
  refine ⟨⟨hi1, hiN⟩, by rw [hroot]; omega, 0, ReachesN.root i (by rw [hroot]; omega), ?_⟩
  exact classCard_pos N (fun x => x) i hi1 hiN rfl

theorem reset_CharP (N : Nat) : CharP N (fun x => x) (fun _ _ => False) := by
  intro x y _ _ _ _
  exact (eqvgen_bot x y).symm

theorem unionOK_true {N : Nat} {uf : List Int} {rf : Nat → Nat} (hIs : IsRepr uf N rf)
    (a b : Nat) (ha1 : 1 ≤ a) (haN : a ≤ N) (hb1 : 1 ≤ b) (hbN : b ≤ N) :
    unionOK uf N (rf a) (rf b) = true := by
  obtain ⟨⟨hra1, hraN⟩, hroota, -⟩ := hIs.2 a ha1 haN
  obtain ⟨⟨hrb1, hrbN⟩, hrootb, -⟩ := hIs.2 b hb1 hbN
  by_cases he : rf a = rf b
  · simp [unionOK, he]
  · simp only [unionOK, Bool.or_eq_true, Bool.and_eq_true, beq_iff_eq, decide_eq_true_eq]
    right
    exact ⟨⟨⟨⟨⟨hroota, hrootb⟩, hra1⟩, hraN⟩, hrb1⟩, hrbN⟩

theorem charP_add_redundant {N : Nat} {rf : Nat → Nat} {R : Nat → Nat → Prop}
    (hc : CharP N rf R) (p q : Nat) (hp1 : 1 ≤ p) (hpN : p ≤ N) (hq1 : 1 ≤ q) (hqN : q ≤ N)
    (he : rf p = rf q) :
    CharP N rf (fun x y => R x y ∨ (x = p ∧ y = q)) := by
  have hpq : Relation.EqvGen R p q := (hc p q hp1 hpN hq1 hqN).mp he
  intro x y hx1 hxN hy1 hyN
  rw [eqvgen_add_single R p q x y]
  constructor
  · intro h
    exact Or.inl ((hc x y hx1 hxN hy1 hyN).mp h)
  · intro h
    apply (hc x y hx1 hxN hy1 hyN).mpr
    rcases h with h | ⟨h1, h2⟩ | ⟨h1, h2⟩
    · exact h
    · exact eqvgen_trans (eqvgen_trans h1 hpq) h2
    · exact eqvgen_trans (eqvgen_trans h1 (eqvgen_symm hpq)) h2

theorem union_step_charP {N : Nat} {uf : List Int} {rf : Nat → Nat} {R : Nat → Nat → Prop}
    (hIs : IsRepr uf N rf) (hC : CharP N rf R)
    (p q : Nat) (hp1 : 1 ≤ p) (hpN : p ≤ N) (hq1 : 1 ≤ q) (hqN : q ≤ N) :
    ∃ rf2, IsRepr (union_sets uf (rf p) (rf q)) N rf2 ∧
      CharP N rf2 (fun x y => R x y ∨ (x = p ∧ y = q)) := by
  by_cases he : rf p = rf q
  · refine ⟨rf, ?_, charP_add_redundant hC p q hp1 hpN hq1 hqN he⟩
    rw [union_sets, if_pos he]
    exact hIs
  · obtain ⟨⟨hrp1, hrpN⟩, hrootp, -⟩ := hIs.2 p hp1 hpN
    obtain ⟨⟨hrq1, hrqN⟩, hrootq, -⟩ := hIs.2 q hq1 hqN
    obtain ⟨w, hw, hIs2⟩ := union_sets_spec hIs (rf p) (rf q) hrp1 hrpN hrootp
      (rf_idem hIs p hp1 hpN) hrq1 hrqN hrootq (rf_idem hIs q hq1 hqN) he
    exact ⟨mergeRf rf (rf p) (rf q) w, hIs2, charP_update hC p q hp1 hpN hq1 hqN w hw⟩

theorem union_step_repr {N : Nat} {uf : List Int} {rf : Nat → Nat}
    (hIs : IsRepr uf N rf) (p q : Nat) (hp1 : 1 ≤ p) (hpN : p ≤ N) (hq1 : 1 ≤ q) (hqN : q ≤ N) :
    ∃ rf2, IsRepr (union_sets uf (rf p) (rf q)) N rf2 := by
  by_cases he : rf p = rf q
  · refine ⟨rf, ?_⟩
    rw [union_sets, if_pos he]
    exact hIs
  · obtain ⟨⟨hrp1, hrpN⟩, hrootp, -⟩ := hIs.2 p hp1 hpN
    obtain ⟨⟨hrq1, hrqN⟩, hrootq, -⟩ := hIs.2 q hq1 hqN
    obtain ⟨w, -, hIs2⟩ := union_sets_spec hIs (rf p) (rf q) hrp1 hrpN hrootp
      (rf_idem hIs p hp1 hpN) hrq1 hrqN hrootq (rf_idem hIs q hq1 hqN) he
    exact ⟨mergeRf rf (rf p) (rf q) w, hIs2⟩

/-! ## The assertion check of the clustering scan (towards C10) -/

theorem scanJ_ok (cfg : Config) (A : List Match_t) (N : Nat) (i : Nat)
    (hi1 : 1 ≤ i) (hiN : i ≤ N) :
    ∀ (f j : Nat) (uf : List Int) (ok : Bool) (rf : Nat → Nat),
      i + 1 ≤ j → IsRepr uf N rf →
      (∃ rf2, IsRepr (clusterScanJ cfg A N i f j uf ok).1 N rf2) ∧
      (clusterScanJ cfg A N i f j uf ok).2 = ok := by
  intro f
  induction f with
  | zero =>
    intro j uf ok rf hj hIs
    exact ⟨⟨rf, hIs⟩, rfl⟩
  | succ f ih =>
    intro j uf ok rf hj hIs
    simp only [clusterScanJ]
    split
    · split
      · exact ⟨⟨rf, hIs⟩, rfl⟩
      · split
        · rename_i hjN hsep hdiag
          have hfa := UF_find_spec hIs i hi1 hiN
          have hfb := UF_find_spec hfa.2 j (by omega) hjN
          rw [hfa.1, hfb.1]
          have hok : unionOK (UF_find (UF_find uf i).1 j).1 N (rf i) (rf j) = true :=
            unionOK_true hfb.2 i j hi1 hiN (by omega) hjN
          obtain ⟨rf2, hIs2⟩ := union_step_repr hfb.2 i j hi1 hiN (by omega) hjN
          have hrec := ih (j + 1) (union_sets (UF_find (UF_find uf i).1 j).1 (rf i) (rf j))
            (ok && unionOK (UF_find (UF_find uf i).1 j).1 N (rf i) (rf j)) rf2 (by omega) hIs2
          refine ⟨hrec.1, ?_⟩
          rw [hrec.2, hok, Bool.and_true]
        · exact ih (j + 1) uf ok rf (by omega) hIs
    · exact ⟨⟨rf, hIs⟩, rfl⟩

theorem scanI_ok (cfg : Config) (A : List Match_t) (N : Nat) :
    ∀ (f i : Nat) (uf : List Int) (ok : Bool) (rf : Nat → Nat),
      1 ≤ i → IsRepr uf N rf →
      (∃ rf2, IsRepr (clusterScanI cfg A N f i uf ok).1 N rf2) ∧
      (clusterScanI cfg A N f i uf ok).2 = ok := by
  intro f
  induction f with
  | zero =>
    intro i uf ok rf hi hIs
    exact ⟨⟨rf, hIs⟩, rfl⟩
  | succ f ih =>
    intro i uf ok rf hi hIs
    simp only [clusterScanI]
    split
    · rename_i hiN
      obtain ⟨⟨rf2, hIs2⟩, hok2⟩ :=
        scanJ_ok cfg A N i hi (by omega) (N - i) (i + 1) uf ok rf (by omega) hIs
      have hrec := ih (i + 1) (clusterScanJ cfg A N i (N - i) (i + 1) uf ok).1
        (clusterScanJ cfg A N i (N - i) (i + 1) uf ok).2 rf2 (by omega) hIs2
      exact ⟨hrec.1, by rw [hrec.2, hok2]⟩
    · exact ⟨⟨rf, hIs⟩, rfl⟩

/-- C10: with the union-find reset to the pre-filter count `S` and the scan
run over the `A.length ≤ S` filtered matches (at least one match was
present, `1 ≤ S`), every `union_sets` call receives two in-range root
indices — both arguments are `find` results — so the modelled assertion
flag of the clustering phase holds. -/
theorem claim_C10 (cfg : Config) (S : Nat) (A : List Match_t)
    (hS : A.length ≤ S) (h1 : 1 ≤ S) :
    (clusterPhase cfg S A).2.2 = true := by
  have hreset : IsRepr (UF_reset S) A.length (fun x => x) := reset_IsRepr S A.length hS
  have hscan := scanI_ok cfg A A.length A.length 1 (UF_reset S) (decide (1 ≤ S))
    (fun x => x) (le_refl 1) hreset
  simp only [clusterPhase]
  rw [hscan.2]
  simp [h1]

theorem claim_C10_witness :
    (clusterPhase defaultConfig 2 [mkMatch 0 0 10, mkMatch 20 20 10]).2.2 = true :=
  claim_C10 defaultConfig 2 [mkMatch 0 0 10, mkMatch 20 20 10] (by decide) (by decide)

/-! ## The clustering scan computes exactly proximity connectivity (towards C6) -/

theorem scanJ_spec (cfg : Config) (A : List Match_t) (N : Nat) (hN : N = A.length)
    (hsort : Start2Sorted A) (i : Nat) (hi1 : 1 ≤ i) :
    ∀ (f j : Nat) (uf : List Int) (ok : Bool) (rf : Nat → Nat) (R : Nat → Nat → Prop),
      i + 1 ≤ j → N + 1 ≤ j + f →
      IsRepr uf N rf → CharP N rf R →
      ∃ rf2, IsRepr (clusterScanJ cfg A N i f j uf ok).1 N rf2 ∧
        CharP N rf2 (fun x y => R x y ∨ (x = i ∧ j ≤ y ∧ prox cfg A i y)) := by
  intro f
  induction f with
  | zero =>
    intro j uf ok rf R hj hfuel hIs hC
    refine ⟨rf, hIs, charP_congr ?_ hC⟩
    intro x y
    constructor
    · exact fun h => Or.inl h
    · intro h
      rcases h with h | ⟨-, hjy, hp⟩
      · exact h
      · obtain ⟨-, -, hyN, -⟩ := hp
        omega
  | succ f ih =>
    intro j uf ok rf R hj hfuel hIs hC
    simp only [clusterScanJ]
    split
    · rename_i hjN
      split
      · rename_i hsep
        refine ⟨rf, hIs, charP_congr ?_ hC⟩
        intro x y
        constructor
        · exact fun h => Or.inl h
        · intro h
          rcases h with h | ⟨-, hjy, hp⟩
          · exact h
          · obtain ⟨-, hiy, hyN, hsy, -⟩ := hp
            have hmono : (mget A (j - 1)).Start2 ≤ (mget A (y - 1)).Start2 :=
              hsort (j - 1) (y - 1) (by omega) (by omega)
            omega
      · rename_i hsep
        split
        · rename_i hdiag
          have hfa := UF_find_spec hIs i hi1 (by omega)
          have hfb := UF_find_spec hfa.2 j (by omega) hjN
          rw [hfa.1, hfb.1]
          obtain ⟨rf2, hIs2, hC2⟩ :=
            union_step_charP hfb.2 hC i j hi1 (by omega) (by omega) hjN
          obtain ⟨rf3, hIs3, hC3⟩ := ih (j + 1)
            (union_sets (UF_find (UF_find uf i).1 j).1 (rf i) (rf j))
            (ok && unionOK (UF_find (UF_find uf i).1 j).1 N (rf i) (rf j)) rf2
            (fun x y => R x y ∨ (x = i ∧ y = j)) (by omega) (by omega) hIs2 hC2
          refine ⟨rf3, hIs3, charP_congr ?_ hC3⟩
          intro x y
          constructor
          · intro h
            rcases h with (h | ⟨hx, hy⟩) | ⟨hx, hjy, hp⟩
            · exact Or.inl h
            · refine Or.inr ⟨hx, by omega, ?_⟩
              subst hy
              refine ⟨hi1, by omega, by omega, by omega, ?_⟩
              simp only [diag]
              exact hdiag
            · exact Or.inr ⟨hx, by omega, hp⟩
          · intro h
            rcases h with h | ⟨hx, hjy, hp⟩
            · exact Or.inl (Or.inl h)
            · by_cases hyj : y = j
              · exact Or.inl (Or.inr ⟨hx, hyj⟩)
              · exact Or.inr ⟨hx, by omega, hp⟩
        · rename_i hdiag
          obtain ⟨rf3, hIs3, hC3⟩ := ih (j + 1) uf ok rf R (by omega) (by omega) hIs hC
          refine ⟨rf3, hIs3, charP_congr ?_ hC3⟩
          intro x y
          constructor
          · intro h
            rcases h with h | ⟨hx, hjy, hp⟩
            · exact Or.inl h
            · exact Or.inr ⟨hx, by omega, hp⟩
          · intro h
            rcases h with h | ⟨hx, hjy, hp⟩
            · exact Or.inl h
            · by_cases hyj : y = j
              · exfalso
                subst hyj
                obtain ⟨-, -, -, -, hd⟩ := hp
                simp only [diag] at hd
                exact hdiag hd
              · exact Or.inr ⟨hx, by omega, hp⟩
    · rename_i hjN
      refine ⟨rf, hIs, charP_congr ?_ hC⟩
      intro x y
      constructor
      · exact fun h => Or.inl h
      · intro h
        rcases h with h | ⟨-, hjy, hp⟩
        · exact h
        · obtain ⟨-, -, hyN, -⟩ := hp
          omega

theorem scanI_spec (cfg : Config) (A : List Match_t) (N : Nat) (hN : N = A.length)
    (hsort : Start2Sorted A) :
    ∀ (f i : Nat) (uf : List Int) (ok : Bool) (rf : Nat → Nat) (R : Nat → Nat → Prop),
      1 ≤ i → N ≤ i + f →
      IsRepr uf N rf → CharP N rf R →
      ∃ rf2, IsRepr (clusterScanI cfg A N f i uf ok).1 N rf2 ∧
        CharP N rf2 (fun x y => R x y ∨ (i ≤ x ∧ prox cfg A x y)) := by
  intro f
  induction f with
  | zero =>
    intro i uf ok rf R hi hfuel hIs hC
    refine ⟨rf, hIs, charP_congr ?_ hC⟩
    intro x y
    constructor
    · exact fun h => Or.inl h
    · intro h
      rcases h with h | ⟨hix, hp⟩
      · exact h
      · obtain ⟨-, hxy, hyN, -⟩ := hp
        omega
  | succ f ih =>
    intro i uf ok rf R hi hfuel hIs hC
    simp only [clusterScanI]
    split
    · rename_i hiN
      obtain ⟨rf2, hIs2, hC2⟩ := scanJ_spec cfg A N hN hsort i hi (N - i) (i + 1) uf ok rf R
        (by omega) (by omega) hIs hC
      obtain ⟨rf3, hIs3, hC3⟩ := ih (i + 1) (clusterScanJ cfg A N i (N - i) (i + 1) uf ok).1
        (clusterScanJ cfg A N i (N - i) (i + 1) uf ok).2 rf2
        (fun x y => R x y ∨ (x = i ∧ i + 1 ≤ y ∧ prox cfg A i y)) (by omega) (by omega)
        hIs2 hC2
      refine ⟨rf3, hIs3, charP_congr ?_ hC3⟩
      intro x y
      constructor
      · intro h
        rcases h with (h | ⟨hx, -, hp⟩) | ⟨hix, hp⟩
        · exact Or.inl h
        · refine Or.inr ⟨by omega, ?_⟩
          rw [hx]
          exact hp
        · exact Or.inr ⟨by omega, hp⟩
      · intro h
        rcases h with h | ⟨hix, hp⟩
        · exact Or.inl (Or.inl h)
        · by_cases hxi : x = i
          · subst hxi
            refine Or.inl (Or.inr ⟨rfl, ?_, hp⟩)
            obtain ⟨-, hxy, -⟩ := hp
            omega
          · exact Or.inr ⟨by omega, hp⟩
    · rename_i hiN
      refine ⟨rf, hIs, charP_congr ?_ hC⟩
      intro x y
      constructor
      · exact fun h => Or.inl h
      · intro h
        rcases h with h | ⟨hix, hp⟩
        · exact h
        · obtain ⟨-, hxy, hyN, -⟩ := hp
          omega

theorem assignIds_spec (N : Nat) :
    ∀ (f i : Nat) (A : List Match_t) (uf : List Int) (rf : Nat → Nat),
      IsRepr uf N rf → A.length = N → 1 ≤ i → A.length + 1 ≤ i + f →
      ∀ k, k < A.length →
        mget (assignIds A f i uf).1 k =
          (if i ≤ k + 1 then { mget A k with cluster_id := ((rf (k + 1) : Nat) : Int) }
           else mget A k) := by
  intro f
  induction f with
  | zero =>
    intro i A uf rf hIs hlen hi1 hfuel k hk
    simp only [assignIds]
    rw [if_neg (by omega)]
  | succ f ih =>
    intro i A uf rf hIs hlen hi1 hfuel k hk
    simp only [assignIds]
    split
    · rename_i hiA
      have hfr := UF_find_spec hIs i hi1 (by omega)
      rw [hfr.1]
      have hrec := ih (i + 1)
        (A.set (i - 1) { mget A (i - 1) with cluster_id := ((rf i : Nat) : Int) })
        (UF_find uf i).1 rf hfr.2 (by rw [List.length_set]; exact hlen) (by omega)
        (by rw [List.length_set]; omega) k (by rw [List.length_set]; exact hk)
      rw [hrec]
      by_cases hik : i ≤ k
      · rw [if_pos (by omega), if_pos (by omega),
          mget_set_ne A (i - 1) k _ (by omega)]
      · by_cases hieq : i = k + 1
        · have hk1 : k = i - 1 := by omega
          subst hk1
          rw [if_neg (by omega), if_pos (by omega),
            mget_set_self A (i - 1) _ (by omega)]
          have hk2 : i - 1 + 1 = i := by omega
          rw [hk2]
        · rw [if_neg (by omega), if_neg (by omega),
            mget_set_ne A (i - 1) k _ (by omega)]
    · rename_i hiA
      rw [if_neg (by omega)]

theorem clusterPhase_spec (cfg : Config) (S : Nat) (A : List Match_t)
    (hS : A.length ≤ S) (hsort : Start2Sorted A) :
    ∃ rf, CharP A.length rf (fun a b => prox cfg A a b) ∧
      ∀ k, 1 ≤ k → k ≤ A.length →
        (mget (clusterPhase cfg S A).1 (k - 1)).cluster_id = ((rf k : Nat) : Int) := by
  obtain ⟨rf2, hIs2, hC2⟩ := scanI_spec cfg A A.length rfl hsort A.length 1 (UF_reset S)
    (decide (1 ≤ S)) (fun x => x) (fun _ _ => False) (le_refl 1) (by omega)
    (reset_IsRepr S A.length hS) (reset_CharP A.length)
  refine ⟨rf2, charP_congr ?_ hC2, ?_⟩
  · intro x y
    constructor
    · intro h
      rcases h with h | ⟨-, hp⟩
      · exact absurd h id
      · exact hp
    · intro h
      refine Or.inr ⟨?_, h⟩
      obtain ⟨h1, -⟩ := h
      exact h1
  · intro k hk1 hkN
    have hassign := assignIds_spec A.length A.length 1 A
      (clusterScanI cfg A A.length A.length 1 (UF_reset S) (decide (1 ≤ S))).1 rf2 hIs2
      rfl (le_refl 1) (by omega) (k - 1) (by omega)
    simp only [clusterPhase]
    rw [hassign, if_pos (by omega)]
    have hk2 : k - 1 + 1 = k := by omega
    rw [hk2]

/-- C6: after the clustering phase (union-find scan plus cluster-id
assignment, run on the sorted filtered matches with the union-find reset
to the pre-filter count `S`), two matches `i` and `j` (1-based) carry the
same `cluster_id` exactly when they are connected by a chain of
pairwise-proximate matches: the equivalence closure of the proximity
relation `prox` (query gap at most `Max_Separation`, diagonal difference
within `max(Fixed_Separation, Separation_Factor * sep)`). -/
theorem claim_C6 (cfg : Config) (S : Nat) (A : List Match_t)
    (hS : A.length ≤ S) (hs : sortedByStart2 A)
    (i j : Nat) (hi1 : 1 ≤ i) (hiN : i ≤ A.length) (hj1 : 1 ≤ j) (hjN : j ≤ A.length) :
    ((mget (clusterPhase cfg S A).1 (i - 1)).cluster_id =
        (mget (clusterPhase cfg S A).1 (j - 1)).cluster_id) ↔
      Relation.EqvGen (fun a b => prox cfg A a b) i j := by
  obtain ⟨rf, hC, hids⟩ := clusterPhase_spec cfg S A hS (sorted_pointwise A hs)
  rw [hids i hi1 hiN, hids j hj1 hjN, Int.natCast_inj]
  exact hC i j hi1 hiN hj1 hjN

theorem claim_C6_witness :
    ((mget (clusterPhase defaultConfig 2 [mkMatch 0 0 10, mkMatch 20 20 10]).1 (1 - 1)).cluster_id =
        (mget (clusterPhase defaultConfig 2 [mkMatch 0 0 10, mkMatch 20 20 10]).1 (2 - 1)).cluster_id) ↔
      Relation.EqvGen (fun a b => prox defaultConfig [mkMatch 0 0 10, mkMatch 20 20 10] a b) 1 2 :=
  claim_C6 defaultConfig 2 [mkMatch 0 0 10, mkMatch 20 20 10] (by decide)
    (by simp only [sortedByStart2]; decide) 1 2 (by decide) (by decide) (by decide) (by decide)

end mummer_mgaps
